import Mathlib

/-!
Verification of the Diploma-Lookbook QR generation pipeline.

The Python sources (`qr-genv2.py`, `qr-generator-logo.py`) are shallowly
embedded here.  Python strings are modelled as `List Char` (a Python `str`
is a sequence of Unicode scalar values; `Char` is exactly a Unicode scalar
value).  Pure helper functions (`slugify`, `add_utm`, `sanitize_filename`,
`unique_path`, the code allocator) become Lean functions; the per-row main
loop becomes an explicit fold over a state record, with the external QR
renderer (`segno`) abstracted as a success oracle; the mapping-document
write becomes an explicit trace of file-system operations.
-/

abbrev S := List Char

/-! ### Basic character machinery -/

/-- `Char.ofNat n` followed by `toNat` is the identity on valid scalar values. -/
theorem toNat_ofNat_valid (n : Nat) (h : Nat.isValidChar n) : (Char.ofNat n).toNat = n := by
  have h32 : n % 4294967296 = n := by
    rcases h with h | h <;> omega
  simp [Char.ofNat, h, Char.ofNatAux, Char.toNat, UInt32.toNat, BitVec.toNat_ofNat, h32]

/-- Specialisation of `toNat_ofNat_valid` below the surrogate range. -/
theorem toNat_ofNat_small (n : Nat) (h : n < 55296) : (Char.ofNat n).toNat = n :=
  toNat_ofNat_valid n (Or.inl h)

/-- Every `Char` is a valid Unicode scalar value: below `0x110000`. -/
theorem char_toNat_lt (c : Char) : c.toNat < 1114112 := by
  have := c.valid
  simp only [Char.toNat]
  rcases this with h | h <;> omega

/-- No `Char` is a surrogate code point. -/
theorem char_not_surrogate (c : Char) : ¬ (55296 ≤ c.toNat ∧ c.toNat < 57344) := by
  have := c.valid
  simp only [Char.toNat]
  rcases this with h | h <;> omega

/-- ASCII lower-case letter or digit, the alphabet `[a-z0-9]` of `slugify`. -/
def isLowerAlnum (c : Char) : Bool :=
  decide ((97 ≤ c.toNat ∧ c.toNat ≤ 122) ∨ (48 ≤ c.toNat ∧ c.toNat ≤ 57))

/-- ASCII alphanumeric character (`str.isalnum` restricted to ASCII, as used
by `urllib`'s `always_safe` set). -/
def isAsciiAlnum (c : Char) : Bool :=
  decide ((65 ≤ c.toNat ∧ c.toNat ≤ 90) ∨ (97 ≤ c.toNat ∧ c.toNat ≤ 122) ∨
    (48 ≤ c.toNat ∧ c.toNat ≤ 57))

/-- ASCII letter. -/
def isAsciiAlpha (c : Char) : Bool :=
  decide ((65 ≤ c.toNat ∧ c.toNat ≤ 90) ∨ (97 ≤ c.toNat ∧ c.toNat ≤ 122))

/-- Whitespace as stripped by Python's `str.strip()` (ASCII part; all of these
are outside `[a-z0-9]`, which is the only fact the proofs use). -/
def isPySpace (c : Char) : Bool :=
  decide (c.toNat = 32 ∨ c.toNat = 9 ∨ c.toNat = 10 ∨ c.toNat = 13 ∨ c.toNat = 11 ∨ c.toNat = 12)

/-- Python's `str.lower` on one character (ASCII range, which is all the
pipeline distinguishes: every non-`[a-z0-9]` character is collapsed anyway). -/
def pyLowerChar (c : Char) : Char :=
  if 65 ≤ c.toNat ∧ c.toNat ≤ 90 then Char.ofNat (c.toNat + 32) else c

/-- Python's `str.upper` on one character (ASCII range). -/
def pyUpperChar (c : Char) : Char :=
  if 97 ≤ c.toNat ∧ c.toNat ≤ 122 then Char.ofNat (c.toNat - 32) else c

/-- Python's `str.lower`. -/
def pyLower (l : S) : S := l.map pyLowerChar

/-- Python's `str.upper`. -/
def pyUpper (l : S) : S := l.map pyUpperChar

/-- Drop the longest suffix whose characters all satisfy `p`
(the right half of Python's `str.strip`/`str.rstrip`). -/
def dropTrail (p : Char → Bool) : S → S
  | [] => []
  | c :: t =>
    let r := dropTrail p t
    if r = [] ∧ p c then [] else c :: r

/-- Python's `str.strip(chars)`: drop characters satisfying `p` from both ends. -/
def pyStripP (p : Char → Bool) (l : S) : S := dropTrail p (l.dropWhile p)

/-- Python's `str.strip()` (whitespace strip). -/
def pyStrip (l : S) : S := pyStripP isPySpace l

/-! ### Decimal rendering (Python f-string `{n}` formatting of an `int`) -/

/-- Fueled decimal printer; `repr10` supplies enough fuel for any input. -/
def repr10Go : Nat → Nat → S
  | 0, _ => []
  | fuel + 1, n =>
    if n < 10 then [Char.ofNat (48 + n)]
    else repr10Go fuel (n / 10) ++ [Char.ofNat (48 + n % 10)]

/-- Decimal rendering of a natural number, modelling Python's `f"{n}"`. -/
def repr10 (n : Nat) : S := repr10Go (n + 1) n

/-- Decimal reading, used only as a left inverse of `repr10`. -/
def toNat10 (l : S) : Nat := l.foldl (fun a c => a * 10 + (c.toNat - 48)) 0

theorem repr10Go_foldl (fuel : Nat) : ∀ n a, n < 10 ^ fuel →
    List.foldl (fun a c => a * 10 + (c.toNat - 48)) a (repr10Go fuel n) =
      a * 10 ^ (repr10Go fuel n).length + n := by
  induction fuel with
  | zero =>
    intro n a h
    simp at h
    simp [repr10Go, h]
  | succ fuel ih =>
    intro n a h
    by_cases h10 : n < 10
    · have hn : 48 + n < 55296 := by omega
      simp [repr10Go, h10, toNat_ofNat_small _ hn]
    · have hdiv : n / 10 < 10 ^ fuel := by
        rw [pow_succ] at h
        omega
      have hm : 48 + n % 10 < 55296 := by omega
      simp only [repr10Go, if_neg h10, List.foldl_append, List.length_append, List.length_cons,
        List.length_nil, List.foldl_cons, List.foldl_nil]
      rw [ih _ _ hdiv, toNat_ofNat_small _ hm, pow_succ]
      have := Nat.div_add_mod n 10
      set L := (repr10Go fuel (n / 10)).length
      calc (a * 10 ^ L + n / 10) * 10 + (48 + n % 10 - 48)
          = a * (10 ^ L * 10) + (n / 10 * 10 + n % 10) := by ring_nf; omega
        _ = a * (10 ^ L * 10) + n := by omega

/-- `toNat10` inverts `repr10`. -/
theorem toNat10_repr10 (n : Nat) : toNat10 (repr10 n) = n := by
  have h : n < 10 ^ (n + 1) := by
    calc n < 10 ^ n := Nat.lt_pow_self (by norm_num) n
      _ ≤ 10 ^ (n + 1) := Nat.pow_le_pow_right (by norm_num) (Nat.le_succ n)
  have := repr10Go_foldl (n + 1) n 0 h
  simpa [toNat10, repr10] using this

/-- Decimal rendering is injective. -/
theorem repr10_injective : Function.Injective repr10 := by
  intro a b hab
  have := toNat10_repr10 a
  rw [hab, toNat10_repr10] at this
  omega

/-! ### `slugify` (qr-genv2.py lines 66-70) -/

/-- One pass of `re.sub(r"[^a-z0-9]+", "-", t)`: every maximal run of
characters outside `[a-z0-9]` becomes a single hyphen.  The flag records
whether we are inside such a run. -/
def subR : Bool → S → S
  | _, [] => []
  | inRun, c :: t =>
    if isLowerAlnum c then c :: subR false t
    else if inRun then subR true t else '-' :: subR true t

/-- `re.sub(r"-{2,}", "-", t)`: collapse runs of two or more hyphens.  The
flag records whether the previous kept character was a hyphen. -/
def collapseH : Bool → S → S
  | _, [] => []
  | afterH, c :: t =>
    if c = '-' then (if afterH then collapseH true t else '-' :: collapseH true t)
    else c :: collapseH false t

/-- `slugify` from `qr-genv2.py`:
`t = (text or "").lower().strip()`, then the two `re.sub` passes, then
`.strip("-")`, with the `"item"` fallback. -/
def slugify (text : S) : S :=
  let t := pyStrip (pyLower text)
  let t := subR false t
  let t := collapseH false t
  let t := pyStripP (fun c => decide (c = '-')) t
  if t = [] then "item".data else t

/-- The slug normalizer as the specification words it: the lowercase form
with every maximal run of characters outside `[a-z0-9]` collapsed to a
single hyphen, leading/trailing hyphens trimmed, empty result replaced by
the literal token `"item"`. -/
def claimSlug (text : S) : S :=
  let t := pyStripP (fun c => decide (c = '-')) (subR false (pyLower text))
  if t = [] then "item".data else t

theorem isLowerAlnum_ne_hyphen {c : Char} (h : isLowerAlnum c = true) : ¬ (c = '-') := by
  intro hc
  subst hc
  simp [isLowerAlnum] at h

theorem isPySpace_not_alnum {c : Char} (h : isPySpace c = true) : isLowerAlnum c = false := by
  simp [isPySpace] at h
  simp [isLowerAlnum]
  omega

theorem subR_merge (ws : S) (l : S) (h : ∀ c ∈ ws, isLowerAlnum c = false) :
    subR true (ws ++ l) = subR true l := by
  induction ws with
  | nil => rfl
  | cons w ws ih =>
    have hw : isLowerAlnum w = false := h w (by simp)
    simp only [List.cons_append, subR, hw]
    simp only [Bool.false_eq_true, if_false, if_true]
    exact ih (fun c hc => h c (by simp [hc]))

theorem subR_shape (l : S) :
    subR false l = subR true l ∨ subR false l = '-' :: subR true l := by
  cases l with
  | nil => left; rfl
  | cons c t =>
    by_cases hc : isLowerAlnum c = true
    · left; simp [subR, hc]
    · right
      simp at hc
      simp [subR, hc]

theorem subR_true_head (l : S) :
    subR true l = [] ∨ ∃ c t, subR true l = c :: t ∧ isLowerAlnum c = true := by
  induction l with
  | nil => left; rfl
  | cons c t ih =>
    by_cases hc : isLowerAlnum c = true
    · right; exact ⟨c, subR false t, by simp [subR, hc], hc⟩
    · simp at hc
      simpa [subR, hc] using ih

theorem dropWhile_hyphen_subR (b : Bool) (l : S) :
    List.dropWhile (fun c => decide (c = '-')) (subR b l) = subR true l := by
  have htrue : List.dropWhile (fun c => decide (c = '-')) (subR true l) = subR true l := by
    rcases subR_true_head l with h | ⟨c, t, h, hc⟩
    · simp [h]
    · rw [h, List.dropWhile_cons]
      simp [isLowerAlnum_ne_hyphen hc]
  cases b
  · rcases subR_shape l with h | h
    · rw [h, htrue]
    · rw [h, List.dropWhile_cons]
      simpa using htrue
  · exact htrue

theorem collapseH_subR (l : S) :
    collapseH false (subR false l) = subR false l ∧
      ∀ b, collapseH b (subR true l) = subR true l := by
  induction l with
  | nil => exact ⟨rfl, fun b => rfl⟩
  | cons c t ih =>
    by_cases hc : isLowerAlnum c = true
    · have hne : ¬ (c = '-') := isLowerAlnum_ne_hyphen hc
      constructor
      · simp [subR, hc, collapseH, hne, ih.1]
      · intro b
        simp [subR, hc, collapseH, hne, ih.1]
    · simp at hc
      constructor
      · simp only [subR, hc, Bool.false_eq_true, if_false, if_true, collapseH, if_pos rfl]
        rw [ih.2 true]
      · intro b
        simp only [subR, hc, Bool.false_eq_true, if_false, if_true]
        exact ih.2 b

theorem dropTrail_cons (p : Char → Bool) (c : Char) (t : S) :
    dropTrail p (c :: t) = if dropTrail p t = [] ∧ p c then [] else c :: dropTrail p t := rfl

theorem dropTrail_subR_append (l : S) :
    ∀ ws, (∀ c ∈ ws, isLowerAlnum c = false) → ∀ b,
      dropTrail (fun c => decide (c = '-')) (subR b (l ++ ws)) =
        dropTrail (fun c => decide (c = '-')) (subR b l) := by
  induction l with
  | nil =>
    intro ws hws b
    have htrue : subR true ws = [] := by
      simpa using subR_merge ws [] hws
    cases b
    · rcases subR_shape ws with h | h
      · simp [subR, h, htrue]
      · simp [subR, h, htrue, dropTrail]
    · simp [subR, htrue]
  | cons c t ih =>
    intro ws hws b
    have iht := ih ws hws true
    have ihf := ih ws hws false
    rw [List.cons_append]
    by_cases hc : isLowerAlnum c = true
    · have e1 : subR b (c :: (t ++ ws)) = c :: subR false (t ++ ws) := by simp [subR, hc]
      have e2 : subR b (c :: t) = c :: subR false t := by simp [subR, hc]
      rw [e1, e2, dropTrail_cons, dropTrail_cons, ihf]
    · simp only [Bool.not_eq_true] at hc
      cases b
      · have e1 : subR false (c :: (t ++ ws)) = '-' :: subR true (t ++ ws) := by
          simp [subR, hc]
        have e2 : subR false (c :: t) = '-' :: subR true t := by simp [subR, hc]
        rw [e1, e2, dropTrail_cons, dropTrail_cons, iht]
      · have e1 : subR true (c :: (t ++ ws)) = subR true (t ++ ws) := by simp [subR, hc]
        have e2 : subR true (c :: t) = subR true t := by simp [subR, hc]
        rw [e1, e2]
        exact iht

theorem dropTrail_decomp (p : Char → Bool) (l : S) :
    ∃ suf, l = dropTrail p l ++ suf ∧ ∀ c ∈ suf, p c = true := by
  induction l with
  | nil => exact ⟨[], rfl, by simp⟩
  | cons c t ih =>
    rcases ih with ⟨suf, hsuf, hall⟩
    by_cases h : dropTrail p t = [] ∧ p c = true
    · refine ⟨c :: suf, ?_, ?_⟩
      · simp [dropTrail, h]
        rw [h.1] at hsuf
        simpa using hsuf
      · intro d hd
        rcases List.mem_cons.mp hd with rfl | hd
        · exact h.2
        · exact hall d hd
    · refine ⟨suf, ?_, hall⟩
      simp only [dropTrail, if_neg h]
      simpa using hsuf

/-- The final strip of both pipelines applied to `subR` output reduces to
`dropTrail` on the hyphen-free-headed `subR true` form. -/
theorem stripH_subR (b : Bool) (l : S) :
    pyStripP (fun c => decide (c = '-')) (subR b l) =
      dropTrail (fun c => decide (c = '-')) (subR true l) := by
  unfold pyStripP
  rw [dropWhile_hyphen_subR]

/-- C7 core: `slugify` equals its specification restatement on every input. -/
theorem slugify_eq_claimSlug (text : S) : slugify text = claimSlug text := by
  have hcollapse := (collapseH_subR (pyStrip (pyLower text))).1
  have hkey : dropTrail (fun c => decide (c = '-')) (subR true (pyStrip (pyLower text))) =
      dropTrail (fun c => decide (c = '-')) (subR true (pyLower text)) := by
    unfold pyStrip pyStripP
    set M := List.dropWhile isPySpace (pyLower text) with hM
    rcases dropTrail_decomp isPySpace M with ⟨suf, hsuf, hall⟩
    have h1 : dropTrail (fun c => decide (c = '-')) (subR true (dropTrail isPySpace M)) =
        dropTrail (fun c => decide (c = '-')) (subR true M) := by
      conv_rhs => rw [hsuf]
      rw [dropTrail_subR_append _ suf (fun c hc => isPySpace_not_alnum (hall c hc)) true]
    have h2 : subR true M = subR true (pyLower text) := by
      conv_rhs => rw [← List.takeWhile_append_dropWhile (p := isPySpace) (l := pyLower text)]
      rw [subR_merge _ _ (fun c hc => isPySpace_not_alnum (List.mem_takeWhile_imp hc))]
    rw [h1, h2]
  simp only [slugify, claimSlug]
  rw [hcollapse, stripH_subR, stripH_subR, hkey]

/-! ### `sanitize_filename` (qr-genv2.py lines 29-42) -/

/-- The character class of `INVALID_CHARS_RE`: `[<>:"/\\|?*\x00-\x1F]`. -/
def isInvalidFileChar (c : Char) : Bool :=
  decide (c = '<' ∨ c = '>' ∨ c = ':' ∨ c = '"' ∨ c = '/' ∨ c = '\\' ∨ c = '|' ∨
    c = '?' ∨ c = '*' ∨ c.toNat ≤ 31)

/-- `RESERVED_NAMES`: Windows reserved device names. -/
def reservedNames : List S :=
  ["CON".data, "PRN".data, "AUX".data, "NUL".data] ++
    (List.range 9).map (fun i => "COM".data ++ repr10 (i + 1)) ++
    (List.range 9).map (fun i => "LPT".data ++ repr10 (i + 1))

/-- `re.sub(r"\s+", " ", name)`: collapse every maximal whitespace run to a
single space. -/
def collapseWs : Bool → S → S
  | _, [] => []
  | inRun, c :: t =>
    if isPySpace c then (if inRun then collapseWs true t else ' ' :: collapseWs true t)
    else c :: collapseWs false t

/-- `sanitize_filename` from `qr-genv2.py` (default `max_len = 150`). -/
def sanitizeFilename (name : S) : S :=
  if name = [] then "untitled".data
  else
    let n := dropTrail (fun c => decide (c = '.' ∨ c = ' ')) (pyStrip name)
    let n := n.filter (fun c => ! isInvalidFileChar c)
    let n := if pyUpper n ∈ reservedNames then n ++ "_file".data else n
    let n := pyStrip (collapseWs false n)
    let n := if n = [] then "untitled".data else n
    n.take 150

/-! ### Collision-avoiding candidate names -/

/-- `f"{base_code}-{i}"`, the allocator's suffixed candidate. -/
def codeCand (base : S) (i : Nat) : S := base ++ '-' :: repr10 i

/-- `f"{base} ({n}){ext}"`, the filename disambiguator of `unique_path`. -/
def pathCand (base ext : S) (n : Nat) : S := base ++ ' ' :: '(' :: (repr10 n ++ ')' :: ext)

theorem codeCand_injective (base : S) : Function.Injective (codeCand base) := by
  intro a b h
  unfold codeCand at h
  have h1 := List.append_cancel_left h
  injection h1 with _ h2
  exact repr10_injective h2

theorem pathCand_injective (base ext : S) : Function.Injective (pathCand base ext) := by
  intro a b h
  unfold pathCand at h
  have h1 : ' ' :: '(' :: (repr10 a ++ ')' :: ext) = ' ' :: '(' :: (repr10 b ++ ')' :: ext) :=
    List.append_cancel_left h
  injection h1 with _ h2
  injection h2 with _ h3
  exact repr10_injective (List.append_cancel_right h3)

/-- Pigeonhole: an injective stream of candidates cannot all lie in a finite
used-set; some index up to the set's length is free. -/
theorem exists_fresh (used : List S) (f : Nat → S) (hf : Function.Injective f) :
    ∃ k, k ≤ used.length ∧ f k ∉ used := by
  by_contra hcon
  push_neg at hcon
  have hsub : ((List.range (used.length + 1)).map f) ⊆ used := by
    intro x hx
    rcases List.mem_map.mp hx with ⟨k, hk, rfl⟩
    exact hcon k (by simpa [Nat.lt_succ_iff] using List.mem_range.mp hk)
  have hnd : ((List.range (used.length + 1)).map f).Nodup :=
    List.Nodup.map hf (List.nodup_range _)
  have := (hnd.subperm hsub).length_le
  simp at this

/-- The `while candidate in taken: try next index` loop, with explicit fuel
(the loop in the source terminates because candidates are pairwise distinct;
`searchFree_not_mem` shows the fuel used below always suffices). -/
def searchFree (taken : List S) (f : Nat → S) : Nat → Nat → S
  | 0, i => f i
  | fuel + 1, i => if f i ∈ taken then searchFree taken f fuel (i + 1) else f i

theorem searchFree_not_mem (taken : List S) (f : Nat → S) :
    ∀ fuel i, (∃ k, k ≤ fuel ∧ f (i + k) ∉ taken) → searchFree taken f fuel i ∉ taken := by
  intro fuel
  induction fuel with
  | zero =>
    intro i ⟨k, hk, hfree⟩
    have : k = 0 := by omega
    subst this
    simpa [searchFree] using hfree
  | succ fuel ih =>
    intro i ⟨k, hk, hfree⟩
    by_cases h : f i ∈ taken
    · simp only [searchFree, if_pos h]
      apply ih
      cases k with
      | zero => exact absurd (by simpa using h) (by simpa using hfree)
      | succ k' => exact ⟨k', by omega, by rwa [show i + 1 + k' = i + (k' + 1) by omega]⟩
    · simpa [searchFree, h] using h

theorem searchFree_fresh (taken : List S) (f : Nat → S) (hf : Function.Injective f) :
    searchFree taken f taken.length 2 ∉ taken := by
  apply searchFree_not_mem
  have hg : Function.Injective (fun k => f (k + 2)) := by
    intro a b hab
    have := hf hab
    omega
  rcases exists_fresh taken _ hg with ⟨k, hk, hfree⟩
  exact ⟨k, hk, by rwa [show 2 + k = k + 2 by omega]⟩

/-! ### The code allocator (qr-genv2.py lines 138-145) -/

/-- `code = base_code or "item"; i = 2; while code in used_codes: code =
f"{base_code}-{i}"; i += 1`.  The fuel `used.length` always suffices
(`allocCode_not_mem`). -/
def allocCode (used : List S) (base : S) : S :=
  let code := if base = [] then "item".data else base
  if code ∈ used then searchFree used (codeCand base) used.length 2 else code

/-- The allocated code is never one already in the used set. -/
theorem allocCode_not_mem (used : List S) (base : S) : allocCode used base ∉ used := by
  unfold allocCode
  by_cases h : (if base = [] then "item".data else base) ∈ used
  · simpa [h] using searchFree_fresh used (codeCand base) (codeCand_injective base)
  · simpa [h] using h

/-! ### `unique_path` (qr-genv2.py lines 45-55) -/

/-- `unique_path(directory, base, ext)`: the directory's current contents are
modelled as the list `fs` of names for which `(directory / name).exists()`
holds. -/
def uniquePath (fs : List S) (base ext : S) : S :=
  if base ++ ext ∈ fs then searchFree fs (pathCand base ext) fs.length 2 else base ++ ext

/-- `unique_path` never returns an existing name. -/
theorem uniquePath_not_mem (fs : List S) (base ext : S) : uniquePath fs base ext ∉ fs := by
  unfold uniquePath
  by_cases h : base ++ ext ∈ fs
  · simpa [h] using searchFree_fresh fs (pathCand base ext) (pathCand_injective base ext)
  · simpa [h] using h

/-! ### UTF-8 (the byte layer of `urllib.parse.quote` / `unquote`) -/

/-- Generic concat-map on lists (Python string building by concatenation). -/
def cMap {α β : Type} (f : α → List β) : List α → List β
  | [] => []
  | a :: t => f a ++ cMap f t

theorem cMap_append {α β : Type} (f : α → List β) (l m : List α) :
    cMap f (l ++ m) = cMap f l ++ cMap f m := by
  induction l with
  | nil => rfl
  | cons a t ih => simp [cMap, ih]

/-- UTF-8 encoding of one scalar value (Python `str.encode("utf-8")`,
character by character). -/
def utf8Encode (c : Char) : List Nat :=
  let n := c.toNat
  if n < 128 then [n]
  else if n < 2048 then [192 + n / 64, 128 + n % 64]
  else if n < 65536 then [224 + n / 4096, 128 + n / 64 % 64, 128 + n % 64]
  else [240 + n / 262144, 128 + n / 4096 % 64, 128 + n / 64 % 64, 128 + n % 64]


/-- U+FFFD, the replacement character of `bytes.decode("utf-8", errors="replace")`. -/
def replChar : Char := Char.ofNat 65533

/-- Incremental UTF-8 decoder state: `(needed, value, lo, hi)` — number of
continuation bytes still expected, the value assembled so far, and the
admissible range for the next byte (the first continuation byte of a
three/four-byte sequence has a restricted range that rules out overlong
encodings and surrogates, as Python's strict decoder does). -/
def u8Go : Nat × Nat × Nat × Nat → List Nat → List Char
  | (0, _, _, _), [] => []
  | (_ + 1, _, _, _), [] => [replChar]
  | (0, _, _, _), b :: t =>
    if b < 128 then Char.ofNat b :: u8Go (0, 0, 0, 0) t
    else if b < 194 then replChar :: u8Go (0, 0, 0, 0) t
    else if b < 224 then u8Go (1, b - 192, 128, 191) t
    else if b = 224 then u8Go (2, 0, 160, 191) t
    else if b = 237 then u8Go (2, 13, 128, 159) t
    else if b < 240 then u8Go (2, b - 224, 128, 191) t
    else if b = 240 then u8Go (3, 0, 144, 191) t
    else if b = 244 then u8Go (3, 4, 128, 143) t
    else if b < 245 then u8Go (3, b - 240, 128, 191) t
    else replChar :: u8Go (0, 0, 0, 0) t
  | (needed + 1, v, lo, hi), b :: t =>
    if lo ≤ b ∧ b ≤ hi then
      match needed with
      | 0 => Char.ofNat (v * 64 + (b - 128)) :: u8Go (0, 0, 0, 0) t
      | m + 1 => u8Go (m + 1, v * 64 + (b - 128), 128, 191) t
    else replChar :: u8Go (0, 0, 0, 0) t

/-- UTF-8 decoding (Python `bytes.decode("utf-8", errors="replace")`; on
malformed input this model emits a replacement character and skips the
offending byte, which the proofs never rely on — they only decode
well-formed sequences). -/
def utf8Decode (bs : List Nat) : List Char := u8Go (0, 0, 0, 0) bs

/-- Decoding inverts encoding, one character at a time. -/
theorem u8Go_encode (c : Char) (rest : List Nat) :
    u8Go (0, 0, 0, 0) (utf8Encode c ++ rest) = c :: u8Go (0, 0, 0, 0) rest := by
  have hlt := char_toNat_lt c
  have hsur : c.toNat < 55296 ∨ 57344 ≤ c.toNat := by
    have := char_not_surrogate c
    omega
  by_cases h1 : c.toNat < 128
  · have he : utf8Encode c = [c.toNat] := by simp [utf8Encode, h1]
    rw [he, List.cons_append, List.nil_append, u8Go]
    rw [if_pos h1, Char.ofNat_toNat]
  · by_cases h2 : c.toNat < 2048
    · have he : utf8Encode c = [192 + c.toNat / 64, 128 + c.toNat % 64] := by
        simp [utf8Encode, h1, h2]
      rw [he, List.cons_append, List.cons_append, List.nil_append, u8Go]
      rw [if_neg (by omega), if_neg (by omega), if_pos (by omega), u8Go]
      rw [if_pos (by omega)]
      have hval : (192 + c.toNat / 64 - 192) * 64 + (128 + c.toNat % 64 - 128) = c.toNat := by
        omega
      rw [hval, Char.ofNat_toNat]
    · by_cases h3 : c.toNat < 65536
      · have he : utf8Encode c =
            [224 + c.toNat / 4096, 128 + c.toNat / 64 % 64, 128 + c.toNat % 64] := by
          simp [utf8Encode, h1, h2, h3]
        rw [he, List.cons_append, List.cons_append, List.cons_append, List.nil_append]
        have hval : ∀ v0 : Nat, v0 = c.toNat / 4096 →
            (v0 * 64 + (128 + c.toNat / 64 % 64 - 128)) * 64 + (128 + c.toNat % 64 - 128) =
              c.toNat := by
          intro v0 hv0
          subst hv0
          omega
        by_cases hA : c.toNat < 4096
        · have hb : 224 + c.toNat / 4096 = 224 := by omega
          rw [hb, u8Go]
          rw [if_neg (by omega), if_neg (by omega), if_neg (by omega), if_pos rfl, u8Go]
          rw [if_pos (by omega), u8Go]
          rw [if_pos (by omega)]
          rw [show (0 * 64 + (128 + c.toNat / 64 % 64 - 128)) = 224 + c.toNat / 4096 - 224 +
            (128 + c.toNat / 64 % 64 - 128) by omega]
          rw [show (224 + c.toNat / 4096 - 224 + (128 + c.toNat / 64 % 64 - 128)) * 64 +
              (128 + c.toNat % 64 - 128) = c.toNat by omega]
          rw [Char.ofNat_toNat]
        · by_cases hB : c.toNat / 4096 = 13
          · have hb : 224 + c.toNat / 4096 = 237 := by omega
            rw [hb, u8Go]
            rw [if_neg (by omega), if_neg (by omega), if_neg (by omega), if_neg (by omega),
              if_pos rfl, u8Go]
            rw [if_pos (by omega), u8Go]
            rw [if_pos (by omega)]
            rw [show (13 * 64 + (128 + c.toNat / 64 % 64 - 128)) * 64 +
                (128 + c.toNat % 64 - 128) = c.toNat by omega]
            rw [Char.ofNat_toNat]
          · have hne1 : ¬ (224 + c.toNat / 4096 = 224) := by omega
            have hne2 : ¬ (224 + c.toNat / 4096 = 237) := by omega
            rw [u8Go]
            rw [if_neg (by omega), if_neg (by omega), if_neg (by omega), if_neg hne1,
              if_neg hne2, if_pos (by omega), u8Go]
            rw [if_pos (by omega), u8Go]
            rw [if_pos (by omega)]
            rw [show ((224 + c.toNat / 4096 - 224) * 64 + (128 + c.toNat / 64 % 64 - 128)) * 64 +
                (128 + c.toNat % 64 - 128) = c.toNat by omega]
            rw [Char.ofNat_toNat]
      · have he : utf8Encode c = [240 + c.toNat / 262144, 128 + c.toNat / 4096 % 64,
            128 + c.toNat / 64 % 64, 128 + c.toNat % 64] := by
          simp [utf8Encode, h1, h2, h3]
        rw [he, List.cons_append, List.cons_append, List.cons_append, List.cons_append,
          List.nil_append]
        by_cases hA : c.toNat < 262144
        · have hb : 240 + c.toNat / 262144 = 240 := by omega
          rw [hb, u8Go]
          rw [if_neg (by omega), if_neg (by omega), if_neg (by omega), if_neg (by omega),
            if_neg (by omega), if_neg (by omega), if_pos rfl, u8Go]
          rw [if_pos (by omega), u8Go]
          rw [if_pos (by omega), u8Go]
          rw [if_pos (by omega)]
          rw [show ((0 * 64 + (128 + c.toNat / 4096 % 64 - 128)) * 64 +
              (128 + c.toNat / 64 % 64 - 128)) * 64 + (128 + c.toNat % 64 - 128) =
              c.toNat by omega]
          rw [Char.ofNat_toNat]
        · by_cases hB : c.toNat / 262144 = 4
          · have hb : 240 + c.toNat / 262144 = 244 := by omega
            rw [hb, u8Go]
            rw [if_neg (by omega), if_neg (by omega), if_neg (by omega), if_neg (by omega),
              if_neg (by omega), if_neg (by omega), if_neg (by omega), if_pos rfl, u8Go]
            rw [if_pos (by omega), u8Go]
            rw [if_pos (by omega), u8Go]
            rw [if_pos (by omega)]
            rw [show ((4 * 64 + (128 + c.toNat / 4096 % 64 - 128)) * 64 +
                (128 + c.toNat / 64 % 64 - 128)) * 64 + (128 + c.toNat % 64 - 128) =
                c.toNat by omega]
            rw [Char.ofNat_toNat]
          · have hne1 : ¬ (240 + c.toNat / 262144 = 240) := by omega
            have hne2 : ¬ (240 + c.toNat / 262144 = 244) := by omega
            rw [u8Go]
            rw [if_neg (by omega), if_neg (by omega), if_neg (by omega), if_neg (by omega),
              if_neg (by omega), if_neg (by omega), if_neg hne1, if_neg hne2,
              if_pos (by omega), u8Go]
            rw [if_pos (by omega), u8Go]
            rw [if_pos (by omega), u8Go]
            rw [if_pos (by omega)]
            rw [show (((240 + c.toNat / 262144 - 240) * 64 + (128 + c.toNat / 4096 % 64 - 128)) *
                64 + (128 + c.toNat / 64 % 64 - 128)) * 64 + (128 + c.toNat % 64 - 128) =
                c.toNat by omega]
            rw [Char.ofNat_toNat]

/-- Decoding inverts encoding on one prefixed character. -/
theorem utf8Decode_encode (c : Char) (rest : List Nat) :
    utf8Decode (utf8Encode c ++ rest) = c :: utf8Decode rest :=
  u8Go_encode c rest

/-- Decoding inverts encoding on whole strings. -/
theorem utf8Decode_cMap (ds : List Char) : utf8Decode (cMap utf8Encode ds) = ds := by
  induction ds with
  | nil => rfl
  | cons c t ih => rw [cMap, utf8Decode_encode, ih]

theorem utf8Encode_lt (c : Char) : ∀ b ∈ utf8Encode c, b < 256 := by
  have hlt := char_toNat_lt c
  intro b hb
  simp only [utf8Encode] at hb
  split_ifs at hb <;> simp at hb <;> omega

/-! ### Percent-encoding (`urllib.parse.quote_plus` / `unquote_plus`) -/

/-- Upper-case hex digit, as `urllib.parse.quote` emits. -/
def hexDigitChar (n : Nat) : Char :=
  if n < 10 then Char.ofNat (48 + n) else Char.ofNat (55 + n)

/-- Value of a hex digit, accepting both cases, as `unquote` does. -/
def hexVal (c : Char) : Option Nat :=
  if 48 ≤ c.toNat ∧ c.toNat ≤ 57 then some (c.toNat - 48)
  else if 65 ≤ c.toNat ∧ c.toNat ≤ 70 then some (c.toNat - 55)
  else if 97 ≤ c.toNat ∧ c.toNat ≤ 102 then some (c.toNat - 87)
  else none

theorem hexVal_hexDigitChar (n : Nat) (h : n < 16) : hexVal (hexDigitChar n) = some n := by
  unfold hexDigitChar hexVal
  by_cases h10 : n < 10
  · rw [if_pos h10, toNat_ofNat_small _ (by omega)]
    rw [if_pos (by omega)]
    rw [show 48 + n - 48 = n by omega]
  · rw [if_neg h10, toNat_ofNat_small _ (by omega)]
    rw [if_neg (by omega), if_pos (by omega)]
    rw [show 55 + n - 55 = n by omega]

theorem hexDigitChar_toNat (n : Nat) (h : n < 16) :
    (hexDigitChar n).toNat = if n < 10 then 48 + n else 55 + n := by
  unfold hexDigitChar
  by_cases h10 : n < 10
  · rw [if_pos h10, if_pos h10, toNat_ofNat_small _ (by omega)]
  · rw [if_neg h10, if_neg h10, toNat_ofNat_small _ (by omega)]

/-- `%XX` rendering of one byte. -/
def pctByte (b : Nat) : S := ['%', hexDigitChar (b / 16), hexDigitChar (b % 16)]

/-- The `always_safe` character set of `urllib.parse.quote`:
ASCII alphanumerics and `_.-~` (and nothing else, since `add_utm` passes
`urlencode` no extra safe characters). -/
def alwaysSafe (c : Char) : Bool :=
  isAsciiAlnum c || decide (c = '_' ∨ c = '.' ∨ c = '-' ∨ c = '~')

/-- `quote_plus` on one character: safe characters kept, space becomes `+`,
everything else percent-encoded through UTF-8. -/
def quotePlusChar (c : Char) : S :=
  if alwaysSafe c then [c]
  else if c = ' ' then ['+']
  else cMap pctByte (utf8Encode c)

/-- `urllib.parse.quote_plus(s, safe="")`. -/
def quotePlus (l : S) : S := cMap quotePlusChar l

/-- The `.replace('+', ' ')` step of `unquote_plus` / `parse_qsl`. -/
def plusToSpace (l : S) : S := l.map (fun c => if c = '+' then ' ' else c)

/-- Scanner mode for `unquote`: `norm` outside an escape, `pct` right after
a `%`, `pctH h1` after `%` and one hex digit `h1`. -/
inductive PMode : Type
  | norm : PMode
  | pct : PMode
  | pctH (h1 : Char) : PMode

/-- `urllib.parse.unquote`: scan the string, collect maximal runs of valid
`%XX` escapes into a byte buffer (`acc`), and decode each run as UTF-8; a
`%` not followed by two hex digits stays literal text and scanning resumes
at the character after the `%`. -/
def pctGo : List Nat → PMode → S → S
  | acc, .norm, [] => utf8Decode acc
  | acc, .pct, [] => utf8Decode acc ++ ['%']
  | acc, .pctH h1, [] => utf8Decode acc ++ ['%', h1]
  | acc, .norm, c :: t =>
    if c = '%' then pctGo acc .pct t
    else utf8Decode acc ++ c :: pctGo [] .norm t
  | acc, .pct, c :: t =>
    match hexVal c with
    | some _ =>
      pctGo acc (.pctH c) t
    | none =>
      if c = '%' then utf8Decode acc ++ '%' :: pctGo [] .pct t
      else utf8Decode acc ++ '%' :: c :: pctGo [] .norm t
  | acc, .pctH h1, c :: t =>
    match hexVal h1, hexVal c with
    | some d1, some d2 => pctGo (acc ++ [d1 * 16 + d2]) .norm t
    | _, _ =>
      if c = '%' then utf8Decode acc ++ '%' :: h1 :: pctGo [] .pct t
      else utf8Decode acc ++ '%' :: h1 :: c :: pctGo [] .norm t

/-- `urllib.parse.unquote` (default UTF-8, `errors="replace"`). -/
def unquote (l : S) : S := pctGo [] .norm l

/-- `urllib.parse.unquote_plus`. -/
def unquotePlus (l : S) : S := unquote (plusToSpace l)

theorem alwaysSafe_ne_plus {c : Char} (h : alwaysSafe c = true) : ¬ (c = '+') := by
  intro hc
  subst hc
  simp [alwaysSafe, isAsciiAlnum] at h

theorem alwaysSafe_ne_pct {c : Char} (h : alwaysSafe c = true) : ¬ (c = '%') := by
  intro hc
  subst hc
  simp [alwaysSafe, isAsciiAlnum] at h

theorem pctByte_chars {b : Nat} (hb : b < 256) {c : Char} (hc : c ∈ pctByte b) :
    c = '%' ∨ (48 ≤ c.toNat ∧ c.toNat ≤ 57) ∨ (65 ≤ c.toNat ∧ c.toNat ≤ 70) := by
  have hdiv : b / 16 < 16 := by omega
  have hmod : b % 16 < 16 := by omega
  have h1 := hexDigitChar_toNat _ hdiv
  have h2 := hexDigitChar_toNat _ hmod
  simp only [pctByte, List.mem_cons, List.not_mem_nil, or_false] at hc
  rcases hc with rfl | rfl | rfl
  · left; rfl
  · right
    rw [h1]
    split_ifs <;> omega
  · right
    rw [h2]
    split_ifs <;> omega

theorem pctByte_ne_plus {b : Nat} (hb : b < 256) {c : Char} (hc : c ∈ pctByte b) :
    ¬ (c = '+') := by
  intro hceq
  subst hceq
  rcases pctByte_chars hb hc with h | h | h
  · exact absurd h (by decide)
  · revert h; decide
  · revert h; decide

/-- After the `+`-to-space replacement, the quoted form of `s` is the
character-wise encoding where safe characters and the space are literal and
everything else is a percent-encoded UTF-8 run. -/
def encChar (c : Char) : S :=
  if alwaysSafe c then [c]
  else if c = ' ' then [' ']
  else cMap pctByte (utf8Encode c)

theorem mem_cMap {α β : Type} {f : α → List β} {l : List α} {x : β} :
    x ∈ cMap f l ↔ ∃ a ∈ l, x ∈ f a := by
  induction l with
  | nil => simp [cMap]
  | cons a t ih => simp [cMap, ih, List.mem_append]

theorem map_plus_fixed {l : S} (h : ∀ x ∈ l, ¬ (x = '+')) :
    l.map (fun c => if c = '+' then ' ' else c) = l := by
  induction l with
  | nil => rfl
  | cons c t ih =>
    rw [List.map_cons, if_neg (h c (by simp))]
    rw [ih (fun x hx => h x (by simp [hx]))]

theorem plusToSpace_quotePlus (s : S) : plusToSpace (quotePlus s) = cMap encChar s := by
  induction s with
  | nil => rfl
  | cons c t ih =>
    simp only [quotePlus, cMap, plusToSpace] at *
    rw [List.map_append, ih]
    congr 1
    unfold quotePlusChar encChar
    by_cases hs : alwaysSafe c = true
    · rw [if_pos hs, if_pos hs]
      simp [alwaysSafe_ne_plus hs]
    · rw [if_neg hs, if_neg hs]
      by_cases hsp : c = ' '
      · rw [if_pos hsp, if_pos hsp]
        rfl
      · rw [if_neg hsp, if_neg hsp]
        apply map_plus_fixed
        intro x hx
        rcases mem_cMap.mp hx with ⟨b, hb, hxb⟩
        exact pctByte_ne_plus (utf8Encode_lt c b hb) hxb

theorem pctGo_pctBytes (bs : List Nat) : ∀ acc rest, (∀ b ∈ bs, b < 256) →
    pctGo acc .norm (cMap pctByte bs ++ rest) = pctGo (acc ++ bs) .norm rest := by
  induction bs with
  | nil =>
    intro acc rest _
    simp [cMap]
  | cons b bs ih =>
    intro acc rest h
    have hb : b < 256 := h b (by simp)
    have hdiv : b / 16 < 16 := by omega
    have hmod : b % 16 < 16 := by omega
    have hshape : cMap pctByte (b :: bs) ++ rest =
        '%' :: hexDigitChar (b / 16) :: hexDigitChar (b % 16) :: (cMap pctByte bs ++ rest) := by
      simp [cMap, pctByte]
    rw [hshape]
    simp only [pctGo, hexVal_hexDigitChar _ hdiv, hexVal_hexDigitChar _ hmod, if_pos]
    rw [show b / 16 * 16 + b % 16 = b by omega]
    rw [ih (acc ++ [b]) rest (fun x hx => h x (by simp [hx]))]
    simp

theorem pctGo_encChar (s : S) : ∀ ds : List Char,
    pctGo (cMap utf8Encode ds) .norm (cMap encChar s) = ds ++ s := by
  induction s with
  | nil =>
    intro ds
    rw [show cMap encChar ([] : S) = [] from rfl, pctGo, utf8Decode_cMap]
    simp
  | cons c s ih =>
    intro ds
    have ihnil : pctGo [] .norm (cMap encChar s) = s := by
      have := ih []
      simpa [cMap] using this
    by_cases hs : alwaysSafe c = true
    · have hne : ¬ (c = '%') := alwaysSafe_ne_pct hs
      rw [show cMap encChar (c :: s) = c :: cMap encChar s by simp [cMap, encChar, hs]]
      rw [pctGo, if_neg hne]
      rw [show utf8Decode (cMap utf8Encode ds) = ds from utf8Decode_cMap ds, ihnil]
    · by_cases hsp : c = ' '
      · have hne : ¬ (c = '%') := by subst hsp; decide
        rw [show cMap encChar (c :: s) = c :: cMap encChar s by
          subst hsp; simp [cMap, encChar, hs]]
        rw [pctGo, if_neg hne]
        rw [show utf8Decode (cMap utf8Encode ds) = ds from utf8Decode_cMap ds, ihnil]
      · rw [show cMap encChar (c :: s) = cMap pctByte (utf8Encode c) ++ cMap encChar s by
          simp [cMap, encChar, hs, hsp]]
        rw [pctGo_pctBytes _ _ _ (utf8Encode_lt c)]
        rw [show cMap utf8Encode ds ++ utf8Encode c = cMap utf8Encode (ds ++ [c]) by
          rw [cMap_append]; simp [cMap]]
        rw [ih (ds ++ [c])]
        simp

/-- Round trip: `unquote_plus` inverts `quote_plus` on every string. -/
theorem unquotePlus_quotePlus (s : S) : unquotePlus (quotePlus s) = s := by
  unfold unquotePlus unquote
  rw [plusToSpace_quotePlus]
  have := pctGo_encChar s []
  simpa [cMap] using this

/-! ### `urllib.parse.urlsplit` / `urlunsplit` / `parse_qsl` / `urlencode` -/

/-- `str.split(sep, 1)`: the part before the first occurrence of `sep` and
the part after it, or `none` when `sep` does not occur. -/
def splitFirst (sep : Char) : S → Option (S × S)
  | [] => none
  | c :: t =>
    if c = sep then some ([], t)
    else
      match splitFirst sep t with
      | none => none
      | some (a, b) => some (c :: a, b)

/-- `scheme_chars` of `urllib.parse`: letters, digits, `+`, `-`, `.`. -/
def isSchemeChar (c : Char) : Bool :=
  isAsciiAlnum c || decide (c = '+' ∨ c = '-' ∨ c = '.')

/-- The scheme test of `urlsplit`: `i > 0`, the first character is an ASCII
letter, and every character before the colon is a scheme character. -/
def schemeOk : S → Bool
  | [] => false
  | c :: t => isAsciiAlpha c && (c :: t).all isSchemeChar

/-- The scheme-extraction step of `urlsplit` (lower-cases the scheme). -/
def splitScheme (l : S) : S × S :=
  match splitFirst ':' l with
  | some (pre, post) => if schemeOk pre then (pyLower pre, post) else ([], l)
  | none => ([], l)

/-- The delimiters ending a netloc: `/`, `?`, `#`. -/
def isNetlocEnd (c : Char) : Bool := decide (c = '/' ∨ c = '?' ∨ c = '#')

/-- The netloc-extraction step of `urlsplit` (`_splitnetloc`): applies only
when the string starts with `//`; the netloc runs to the first `/`, `?` or
`#`, which stays with the remainder. -/
def splitNetloc (l : S) : S × S :=
  match l with
  | c1 :: c2 :: rest =>
    if c1 = '/' ∧ c2 = '/' then
      (rest.takeWhile (fun c => ! isNetlocEnd c), rest.dropWhile (fun c => ! isNetlocEnd c))
    else ([], l)
  | _ => ([], l)

/-- Characters removed everywhere by `urlsplit` (`_UNSAFE_URL_BYTES_TO_REMOVE`:
tab, carriage return, newline). -/
def isUrlUnsafe (c : Char) : Bool :=
  decide (c.toNat = 9 ∨ c.toNat = 13 ∨ c.toNat = 10)

def removeUnsafe (l : S) : S := l.filter (fun c => ! isUrlUnsafe c)

/-- Split at the first `#` (fragment); everything after it, `#`s included,
is the fragment. -/
def splitFragment (l : S) : S × S :=
  match splitFirst '#' l with
  | some (a, b) => (a, b)
  | none => (l, [])

/-- Split at the first `?` (query). -/
def splitQuery (l : S) : S × S :=
  match splitFirst '?' l with
  | some (a, b) => (a, b)
  | none => (l, [])

/-- The result shape of `urlsplit`. -/
structure SplitResult where
  scheme : S
  netloc : S
  path : S
  query : S
  fragment : S
deriving DecidableEq

/-- `urllib.parse.urlsplit` (with `allow_fragments=True`; the bracket
validation of netlocs, which can only raise on ill-formed IPv6 hosts, is
not modelled). -/
def urlsplit (url : S) : SplitResult :=
  let u0 := removeUnsafe url
  let sp := splitScheme u0
  let np := splitNetloc sp.2
  let pf := splitFragment np.2
  let pq := splitQuery pf.1
  ⟨sp.1, np.1, pq.1, pq.2, pf.2⟩

/-- `urllib.parse.urlunsplit`. -/
def urlunsplit (r : SplitResult) : S :=
  let url := r.path
  let url :=
    if r.netloc ≠ [] ∨ (url ≠ [] ∧ url.take 2 = ['/', '/']) then
      '/' :: '/' :: (r.netloc ++ (if url ≠ [] ∧ url.take 1 ≠ ['/'] then '/' :: url else url))
    else url
  let url := if r.scheme ≠ [] then r.scheme ++ ':' :: url else url
  let url := if r.query ≠ [] then url ++ '?' :: r.query else url
  if r.fragment ≠ [] then url ++ '#' :: r.fragment else url

/-- `str.split(sep)` (no maxsplit): always returns one more chunk than there
are separators; the empty string yields `[""]`. -/
def splitSep (sep : Char) : S → List S
  | [] => [[]]
  | c :: t =>
    let r := splitSep sep t
    if c = sep then [] :: r
    else
      match r with
      | [] => [[c]]
      | h :: t2 => (c :: h) :: t2

/-- `urllib.parse.parse_qsl(qs, keep_blank_values=True)`: split on `&`, skip
empty chunks, split each chunk at the first `=` (a chunk without `=` gets an
empty value), and unquote names and values after `+`-to-space replacement. -/
def parseQsl (qs : S) : List (S × S) :=
  (splitSep '&' qs).filterMap fun chunk =>
    if chunk = [] then none
    else
      match splitFirst '=' chunk with
      | some (n, v) => some (unquotePlus n, unquotePlus v)
      | none => some (unquotePlus chunk, unquotePlus [])

/-- `"&".join(...)`. -/
def joinAmp : List S → S
  | [] => []
  | [x] => x
  | x :: y :: t => x ++ '&' :: joinAmp (y :: t)

/-- `urllib.parse.urlencode(pairs)` with the default `quote_via=quote_plus`
and `safe=""`. -/
def urlencode (ps : List (S × S)) : S :=
  joinAmp (ps.map (fun kv => quotePlus kv.1 ++ '=' :: quotePlus kv.2))

/-- `add_utm` from `qr-genv2.py` lines 72-81: split the URL, parse the query
keeping blank values, collect the lower-cased existing keys, append each
parameter whose value is non-empty and whose lower-cased key is not already
present, re-encode, and reassemble. -/
def addUtm (url : S) (params : List (S × S)) : S :=
  let parts := urlsplit url
  let pairs := parseQsl parts.query
  let existing := pairs.map (fun kv => pyLower kv.1)
  let newPairs :=
    pairs ++ params.filter (fun kv =>
      decide (¬ kv.2 = []) && decide (¬ pyLower kv.1 ∈ existing))
  urlunsplit ⟨parts.scheme, parts.netloc, parts.path, urlencode newPairs, parts.fragment⟩

/-! ### splitFirst toolbox -/

theorem splitFirst_none_of {c : Char} {l : S} (h : c ∉ l) : splitFirst c l = none := by
  induction l with
  | nil => rfl
  | cons a t ih =>
    have hac : ¬ (a = c) := by
      intro he
      subst he
      exact h (List.mem_cons_self a t)
    rw [splitFirst, if_neg hac, ih (fun hm => h (List.mem_cons_of_mem a hm))]

theorem not_mem_of_splitFirst_none {c : Char} {l : S} (h : splitFirst c l = none) : c ∉ l := by
  induction l with
  | nil => simp
  | cons a t ih =>
    rw [splitFirst] at h
    by_cases hac : a = c
    · rw [if_pos hac] at h
      cases h
    · rw [if_neg hac] at h
      cases hsf : splitFirst c t with
      | none =>
        simp only [List.mem_cons, not_or]
        exact ⟨fun he => hac he.symm, ih hsf⟩
      | some pr =>
        rw [hsf] at h
        obtain ⟨x, y⟩ := pr
        cases h

theorem splitFirst_eq_some_of {c : Char} : ∀ {l a b : S},
    splitFirst c l = some (a, b) → l = a ++ c :: b ∧ c ∉ a := by
  intro l
  induction l with
  | nil => intro a b h; cases h
  | cons x t ih =>
    intro a b h
    rw [splitFirst] at h
    by_cases hxc : x = c
    · rw [if_pos hxc] at h
      injection h with h
      obtain ⟨ha, hb⟩ := Prod.mk.injEq .. ▸ h
      subst ha
      subst hb
      subst hxc
      simp
    · rw [if_neg hxc] at h
      cases hsf : splitFirst c t with
      | none =>
        rw [hsf] at h
        cases h
      | some pr =>
        obtain ⟨a', b'⟩ := pr
        rw [hsf] at h
        injection h with h
        obtain ⟨ha, hb⟩ := Prod.mk.injEq .. ▸ h
        obtain ⟨ht, hna⟩ := ih hsf
        subst hb
        rw [← ha]
        constructor
        · rw [ht]
          simp
        · simp only [List.mem_cons, not_or]
          exact ⟨fun he => hxc he.symm, hna⟩

theorem splitFirst_boundary {c : Char} {a : S} (ha : c ∉ a) (b : S) :
    splitFirst c (a ++ c :: b) = some (a, b) := by
  induction a with
  | nil => simp [splitFirst]
  | cons x t ih =>
    have hxc : ¬ (x = c) := by
      intro he
      subst he
      exact ha (List.mem_cons_self x t)
    rw [List.cons_append, splitFirst, if_neg hxc,
      ih (fun hm => ha (List.mem_cons_of_mem x hm))]

theorem splitFirst_append_some {c : Char} {l a b : S} (h : splitFirst c l = some (a, b))
    (m : S) : splitFirst c (l ++ m) = some (a, b ++ m) := by
  obtain ⟨hl, hna⟩ := splitFirst_eq_some_of h
  subst hl
  have hsh : (a ++ c :: b) ++ m = a ++ c :: (b ++ m) := by simp
  rw [hsh]
  exact splitFirst_boundary hna (b ++ m)

theorem splitFirst_append_left {c : Char} {l m a b : S} (hl : c ∉ l)
    (h : splitFirst c m = some (a, b)) : splitFirst c (l ++ m) = some (l ++ a, b) := by
  obtain ⟨hm, hna⟩ := splitFirst_eq_some_of h
  subst hm
  have hsh : l ++ (a ++ c :: b) = (l ++ a) ++ c :: b := by simp
  rw [hsh]
  refine splitFirst_boundary ?_ b
  simp only [List.mem_append, not_or]
  exact ⟨hl, hna⟩

theorem splitFirst_append_none {c : Char} {l m : S} (hl : c ∉ l) (hm : c ∉ m) :
    splitFirst c (l ++ m) = none := by
  apply splitFirst_none_of
  simp only [List.mem_append, not_or]
  exact ⟨hl, hm⟩

/-! ### takeWhile / dropWhile over concatenation -/

theorem takeWhile_append_all {p : Char → Bool} {l : S} (h : ∀ x ∈ l, p x = true) (m : S) :
    (l ++ m).takeWhile p = l ++ m.takeWhile p := by
  induction l with
  | nil => simp
  | cons x t ih =>
    rw [List.cons_append, List.takeWhile_cons, if_pos (h x (List.mem_cons_self x t)),
      ih (fun y hy => h y (List.mem_cons_of_mem x hy)), List.cons_append]

theorem dropWhile_append_all {p : Char → Bool} {l : S} (h : ∀ x ∈ l, p x = true) (m : S) :
    (l ++ m).dropWhile p = m.dropWhile p := by
  induction l with
  | nil => simp
  | cons x t ih =>
    rw [List.cons_append, List.dropWhile_cons, if_pos (h x (List.mem_cons_self x t)),
      ih (fun y hy => h y (List.mem_cons_of_mem x hy))]

/-! ### Character sets of encoded output -/

theorem alwaysSafe_toNat {x : Char} (h : alwaysSafe x = true) :
    (48 ≤ x.toNat ∧ x.toNat ≤ 57) ∨ (65 ≤ x.toNat ∧ x.toNat ≤ 90) ∨
    (97 ≤ x.toNat ∧ x.toNat ≤ 122) ∨ x.toNat = 95 ∨ x.toNat = 46 ∨ x.toNat = 45 ∨
    x.toNat = 126 := by
  simp only [alwaysSafe, isAsciiAlnum, Bool.or_eq_true, decide_eq_true_eq] at h
  rcases h with h | h
  · omega
  · rcases h with h | h | h | h <;> subst h <;> decide

theorem mem_quotePlus_toNat {l : S} {x : Char} (hx : x ∈ quotePlus l) :
    (48 ≤ x.toNat ∧ x.toNat ≤ 57) ∨ (65 ≤ x.toNat ∧ x.toNat ≤ 90) ∨
    (97 ≤ x.toNat ∧ x.toNat ≤ 122) ∨ x.toNat = 95 ∨ x.toNat = 46 ∨ x.toNat = 45 ∨
    x.toNat = 126 ∨ x.toNat = 43 ∨ x.toNat = 37 := by
  rcases mem_cMap.mp hx with ⟨c, _, hxc⟩
  unfold quotePlusChar at hxc
  split_ifs at hxc with h1 h2
  · rcases List.mem_singleton.mp hxc with rfl
    have := alwaysSafe_toNat h1
    tauto
  · rcases List.mem_singleton.mp hxc with rfl
    decide
  · rcases mem_cMap.mp hxc with ⟨b, hb, hxb⟩
    rcases pctByte_chars (utf8Encode_lt c b hb) hxb with h | h | h
    · subst h
      decide
    · tauto
    · omega

theorem eq_not_mem_quotePlus (l : S) : ¬ ('=' ∈ quotePlus l) := by
  intro hx
  have h := mem_quotePlus_toNat hx
  have he : ('=' : Char).toNat = 61 := rfl
  rw [he] at h
  omega

theorem amp_not_mem_chunk (k v : S) : ¬ ('&' ∈ quotePlus k ++ '=' :: quotePlus v) := by
  intro hx
  have he : ('&' : Char).toNat = 38 := rfl
  rcases List.mem_append.mp hx with h | h
  · have := mem_quotePlus_toNat h
    rw [he] at this
    omega
  · rcases List.mem_cons.mp h with h | h
    · exact absurd (congrArg Char.toNat h) (by decide)
    · have := mem_quotePlus_toNat h
      rw [he] at this
      omega

theorem mem_joinAmp {ls : List S} {x : Char} (hx : x ∈ joinAmp ls) :
    x = '&' ∨ ∃ ch ∈ ls, x ∈ ch := by
  induction ls with
  | nil => cases hx
  | cons ch t ih =>
    cases t with
    | nil =>
      right
      exact ⟨ch, List.mem_cons_self ch [], hx⟩
    | cons ch2 t2 =>
      rw [joinAmp] at hx
      rcases List.mem_append.mp hx with h | h
      · right
        exact ⟨ch, List.mem_cons_self _ _, h⟩
      · rcases List.mem_cons.mp h with h | h
        · left; exact h
        · rcases ih h with h | ⟨ch3, hch3, hx3⟩
          · left; exact h
          · right
            exact ⟨ch3, List.mem_cons_of_mem _ hch3, hx3⟩

theorem mem_urlencode_toNat {ps : List (S × S)} {x : Char} (hx : x ∈ urlencode ps) :
    (48 ≤ x.toNat ∧ x.toNat ≤ 57) ∨ (65 ≤ x.toNat ∧ x.toNat ≤ 90) ∨
    (97 ≤ x.toNat ∧ x.toNat ≤ 122) ∨ x.toNat = 95 ∨ x.toNat = 46 ∨ x.toNat = 45 ∨
    x.toNat = 126 ∨ x.toNat = 43 ∨ x.toNat = 37 ∨ x.toNat = 61 ∨ x.toNat = 38 := by
  rcases mem_joinAmp hx with h | ⟨ch, hch, hxch⟩
  · subst h
    have he : ('&' : Char).toNat = 38 := rfl
    omega
  · rcases List.mem_map.mp hch with ⟨kv, _, hkv⟩
    subst hkv
    rcases List.mem_append.mp hxch with h | h
    · have := mem_quotePlus_toNat h
      omega
    · rcases List.mem_cons.mp h with h | h
      · subst h
        have he : ('=' : Char).toNat = 61 := rfl
        omega
      · have := mem_quotePlus_toNat h
        omega

/-- The re-encoded query never contains `#`, `?`, `:` or one of the
characters that `urlsplit` strips. -/
theorem urlencode_not_special {ps : List (S × S)} {x : Char} (hx : x ∈ urlencode ps) :
    ¬ (x = '#') ∧ ¬ (x = '?') ∧ ¬ (x = ':') ∧ isUrlUnsafe x = false := by
  have h := mem_urlencode_toNat hx
  refine ⟨?_, ?_, ?_, ?_⟩
  · intro he
    subst he
    have hn : ('#' : Char).toNat = 35 := rfl
    omega
  · intro he
    subst he
    have hn : ('?' : Char).toNat = 63 := rfl
    omega
  · intro he
    subst he
    have hn : (':' : Char).toNat = 58 := rfl
    omega
  · simp only [isUrlUnsafe, decide_eq_false_iff_not]
    omega

/-! ### parse_qsl inverts urlencode -/

theorem splitSep_no_sep {sep : Char} {l : S} (h : sep ∉ l) : splitSep sep l = [l] := by
  induction l with
  | nil => rfl
  | cons c t ih =>
    have hc : ¬ (c = sep) := by
      intro he
      subst he
      exact h (List.mem_cons_self c t)
    rw [splitSep]
    simp only [if_neg hc, ih (fun hm => h (List.mem_cons_of_mem c hm))]

theorem splitSep_cons_sep {sep : Char} {l : S} (h : sep ∉ l) (m : S) :
    splitSep sep (l ++ sep :: m) = l :: splitSep sep m := by
  induction l with
  | nil =>
    rw [List.nil_append, splitSep]
    simp
  | cons c t ih =>
    have hc : ¬ (c = sep) := by
      intro he
      subst he
      exact h (List.mem_cons_self c t)
    rw [List.cons_append, splitSep]
    simp only [if_neg hc, ih (fun hm => h (List.mem_cons_of_mem c hm))]

/-- `parse_qsl` recovers exactly the pairs that `urlencode` serialised. -/
theorem parseQsl_urlencode (ps : List (S × S)) : parseQsl (urlencode ps) = ps := by
  induction ps with
  | nil => rfl
  | cons kv ps ih =>
    obtain ⟨k, v⟩ := kv
    have hchunk : splitFirst '=' (quotePlus k ++ '=' :: quotePlus v) =
        some (quotePlus k, quotePlus v) :=
      splitFirst_boundary (eq_not_mem_quotePlus k) (quotePlus v)
    have hchunk_ne : ¬ (quotePlus k ++ '=' :: quotePlus v = []) := by simp
    cases ps with
    | nil =>
      show parseQsl (joinAmp [quotePlus k ++ '=' :: quotePlus v]) = [(k, v)]
      rw [joinAmp]
      unfold parseQsl
      rw [splitSep_no_sep (amp_not_mem_chunk k v)]
      rw [List.filterMap_cons]
      simp only [if_neg hchunk_ne, hchunk, List.filterMap_nil]
      rw [unquotePlus_quotePlus, unquotePlus_quotePlus]
    | cons kv2 ps2 =>
      show parseQsl (joinAmp ((quotePlus k ++ '=' :: quotePlus v) ::
        (quotePlus kv2.1 ++ '=' :: quotePlus kv2.2) ::
        List.map (fun kv => quotePlus kv.1 ++ '=' :: quotePlus kv.2) ps2)) = (k, v) :: kv2 :: ps2
      rw [joinAmp]
      unfold parseQsl
      rw [splitSep_cons_sep (amp_not_mem_chunk k v)]
      rw [List.filterMap_cons]
      simp only [if_neg hchunk_ne, hchunk]
      rw [unquotePlus_quotePlus, unquotePlus_quotePlus]
      show (k, v) :: parseQsl (urlencode (kv2 :: ps2)) = (k, v) :: kv2 :: ps2
      rw [ih]

/-! ### Scheme-step lemmas -/

theorem char_eq_of_toNat {a b : Char} (h : a.toNat = b.toNat) : a = b :=
  Char.ext (UInt32.ext h)

theorem splitScheme_eq_none {u : S} (h : splitFirst ':' u = none) :
    splitScheme u = ([], u) := by
  unfold splitScheme
  rw [h]

theorem splitScheme_eq_some {u pre post : S} (h : splitFirst ':' u = some (pre, post)) :
    splitScheme u = if schemeOk pre = true then (pyLower pre, post) else ([], u) := by
  unfold splitScheme
  rw [h]

theorem isSchemeChar_iff (c : Char) : isSchemeChar c = true ↔
    ((48 ≤ c.toNat ∧ c.toNat ≤ 57) ∨ (65 ≤ c.toNat ∧ c.toNat ≤ 90) ∨
     (97 ≤ c.toNat ∧ c.toNat ≤ 122) ∨ c.toNat = 43 ∨ c.toNat = 45 ∨ c.toNat = 46) := by
  simp only [isSchemeChar, isAsciiAlnum, Bool.or_eq_true, decide_eq_true_eq]
  constructor
  · intro h
    rcases h with h | h
    · omega
    · rcases h with h | h | h <;> subst h <;> decide
  · intro h
    rcases h with h | h | h | h | h | h
    · left; omega
    · left; omega
    · left; omega
    · right; left
      exact char_eq_of_toNat (by rw [h]; rfl)
    · right; right; left
      exact char_eq_of_toNat (by rw [h]; rfl)
    · right; right; right
      exact char_eq_of_toNat (by rw [h]; rfl)

theorem pyLowerChar_toNat (c : Char) :
    (pyLowerChar c).toNat =
      if 65 ≤ c.toNat ∧ c.toNat ≤ 90 then c.toNat + 32 else c.toNat := by
  unfold pyLowerChar
  by_cases h : 65 ≤ c.toNat ∧ c.toNat ≤ 90
  · rw [if_pos h, if_pos h, toNat_ofNat_small _ (by omega)]
  · rw [if_neg h, if_neg h]

theorem pyLowerChar_isSchemeChar {c : Char} (h : isSchemeChar c = true) :
    isSchemeChar (pyLowerChar c) = true := by
  rw [isSchemeChar_iff] at h ⊢
  have ht := pyLowerChar_toNat c
  by_cases hc : 65 ≤ c.toNat ∧ c.toNat ≤ 90
  · rw [if_pos hc] at ht
    omega
  · rw [if_neg hc] at ht
    omega

theorem isAsciiAlpha_iff (c : Char) : isAsciiAlpha c = true ↔
    ((65 ≤ c.toNat ∧ c.toNat ≤ 90) ∨ (97 ≤ c.toNat ∧ c.toNat ≤ 122)) := by
  simp [isAsciiAlpha]

theorem pyLowerChar_alpha {c : Char} (h : isAsciiAlpha c = true) :
    isAsciiAlpha (pyLowerChar c) = true := by
  rw [isAsciiAlpha_iff] at h ⊢
  have ht := pyLowerChar_toNat c
  by_cases hc : 65 ≤ c.toNat ∧ c.toNat ≤ 90
  · rw [if_pos hc] at ht
    omega
  · rw [if_neg hc] at ht
    omega

theorem pyLowerChar_idem (c : Char) : pyLowerChar (pyLowerChar c) = pyLowerChar c := by
  apply char_eq_of_toNat
  have ht := pyLowerChar_toNat c
  have ht2 := pyLowerChar_toNat (pyLowerChar c)
  by_cases h : 65 ≤ c.toNat ∧ c.toNat ≤ 90
  · rw [if_pos h] at ht
    rw [ht, if_neg (by omega)] at ht2
    omega
  · rw [if_neg h] at ht
    rw [ht, if_neg h] at ht2
    omega

theorem pyLower_idem (l : S) : pyLower (pyLower l) = pyLower l := by
  unfold pyLower
  rw [List.map_map]
  apply List.map_congr_left
  intro c _
  exact pyLowerChar_idem c

theorem pyLowerChar_ne_colon {c : Char} (h : isSchemeChar c = true) :
    ¬ (pyLowerChar c = ':') := by
  intro he
  have h58 : (pyLowerChar c).toNat = 58 := by rw [he]; rfl
  rw [isSchemeChar_iff] at h
  have ht := pyLowerChar_toNat c
  by_cases hc : 65 ≤ c.toNat ∧ c.toNat ≤ 90
  · rw [if_pos hc] at ht
    omega
  · rw [if_neg hc] at ht
    omega

theorem schemeOk_ne_nil {l : S} (h : schemeOk l = true) : l ≠ [] := by
  intro he
  subst he
  simp [schemeOk] at h

theorem schemeOk_all {l : S} (h : schemeOk l = true) : ∀ x ∈ l, isSchemeChar x = true := by
  cases l with
  | nil => simp
  | cons c t =>
    simp only [schemeOk, Bool.and_eq_true, List.all_eq_true] at h
    exact h.2

theorem schemeOk_no_colon {l : S} (h : schemeOk l = true) : ':' ∉ l := by
  intro hm
  have hc := schemeOk_all h ':' hm
  rw [isSchemeChar_iff] at hc
  have h58 : (':' : Char).toNat = 58 := rfl
  omega

theorem schemeOk_false_of_bad {a : S} {x : Char} (hx : x ∈ a) (hxs : isSchemeChar x = false) :
    schemeOk a = false := by
  cases a with
  | nil => cases hx
  | cons y t =>
    by_contra hcon
    rw [Bool.not_eq_false] at hcon
    simp only [schemeOk, Bool.and_eq_true, List.all_eq_true] at hcon
    have := hcon.2 x hx
    rw [hxs] at this
    cases this

theorem schemeOk_pyLower {l : S} (h : schemeOk l = true) : schemeOk (pyLower l) = true := by
  cases l with
  | nil => simp [schemeOk] at h
  | cons c t =>
    simp only [schemeOk, Bool.and_eq_true, List.all_eq_true] at h
    show schemeOk (pyLowerChar c :: List.map pyLowerChar t) = true
    simp only [schemeOk, Bool.and_eq_true, List.all_eq_true]
    refine ⟨pyLowerChar_alpha h.1, ?_⟩
    intro x hx
    rcases List.mem_cons.mp hx with rfl | hx
    · exact pyLowerChar_isSchemeChar (h.2 c (List.mem_cons_self c t))
    · rcases List.mem_map.mp hx with ⟨y, hy, rfl⟩
      exact pyLowerChar_isSchemeChar (h.2 y (List.mem_cons_of_mem c hy))

theorem pyLower_no_colon {l : S} (h : ∀ x ∈ l, isSchemeChar x = true) : ':' ∉ pyLower l := by
  intro hm
  rcases List.mem_map.mp hm with ⟨y, hy, hey⟩
  exact pyLowerChar_ne_colon (h y hy) hey

/-- Outcome characterization of the scheme-extraction step. -/
theorem splitScheme_out (u : S) :
    splitScheme u = ([], u) ∨
      ∃ pre post, splitFirst ':' u = some (pre, post) ∧ schemeOk pre = true ∧
        splitScheme u = (pyLower pre, post) := by
  cases hsf : splitFirst ':' u with
  | none => left; exact splitScheme_eq_none hsf
  | some pr =>
    obtain ⟨pre, post⟩ := pr
    by_cases hok : schemeOk pre = true
    · right
      exact ⟨pre, post, rfl, hok, by rw [splitScheme_eq_some hsf, if_pos hok]⟩
    · left
      rw [splitScheme_eq_some hsf, if_neg hok]

theorem splitScheme_of_scheme {s : S} (rest : S) (hs : schemeOk s = true) (hc : ':' ∉ s)
    (hlow : pyLower s = s) : splitScheme (s ++ ':' :: rest) = (s, rest) := by
  rw [splitScheme_eq_some (splitFirst_boundary hc rest), if_pos hs, hlow]

theorem splitScheme_head_not_alpha {c : Char} {t : S} (h : isAsciiAlpha c = false) :
    splitScheme (c :: t) = ([], c :: t) := by
  cases hsf : splitFirst ':' (c :: t) with
  | none => exact splitScheme_eq_none hsf
  | some pr =>
    obtain ⟨pre, post⟩ := pr
    rw [splitScheme_eq_some hsf]
    obtain ⟨hdec, hnc⟩ := splitFirst_eq_some_of hsf
    cases pre with
    | nil => rw [if_neg (by simp [schemeOk])]
    | cons x pre2 =>
      have hx : x = c := by
        rw [List.cons_append] at hdec
        injection hdec with h1 _
        exact h1.symm
      subst hx
      rw [if_neg (by simp [schemeOk, h])]

theorem splitScheme_fail_schemeOk {u a b : S} (hu : splitScheme u = ([], u))
    (hsf : splitFirst ':' u = some (a, b)) : schemeOk a = false := by
  by_contra hok
  rw [Bool.not_eq_false] at hok
  rw [splitScheme_eq_some hsf, if_pos hok] at hu
  have h1 : pyLower a = [] := congrArg Prod.fst hu
  have h2 : a = [] := by
    cases a with
    | nil => rfl
    | cons x t => simp [pyLower] at h1
  subst h2
  simp [schemeOk] at hok

theorem splitScheme_prefix_fail {p t u : S} (hpt : p ++ t = u)
    (hu : splitScheme u = ([], u)) : splitScheme p = ([], p) := by
  cases hsf : splitFirst ':' p with
  | none => exact splitScheme_eq_none hsf
  | some pr =>
    obtain ⟨a, b⟩ := pr
    have hsfu : splitFirst ':' u = some (a, b ++ t) := by
      rw [← hpt]
      exact splitFirst_append_some hsf t
    rw [splitScheme_eq_some hsf,
      if_neg (by rw [splitScheme_fail_schemeOk hu hsfu]; simp)]

theorem splitScheme_append_fail (p X : S) (hp : splitScheme p = ([], p))
    (hX : X = [] ∨ ∃ x0 X2, X = x0 :: X2 ∧ isSchemeChar x0 = false ∧ ¬ (x0 = ':')) :
    splitScheme (p ++ X) = ([], p ++ X) := by
  cases hsf : splitFirst ':' (p ++ X) with
  | none => exact splitScheme_eq_none hsf
  | some pr =>
    obtain ⟨a, b⟩ := pr
    rw [splitScheme_eq_some hsf]
    suffices hok : schemeOk a = false by rw [if_neg (by rw [hok]; simp)]
    by_cases hcp : ':' ∈ p
    · obtain ⟨a0, b0, hsplit⟩ : ∃ a0 b0, splitFirst ':' p = some (a0, b0) := by
        cases hsp : splitFirst ':' p with
        | none => exact absurd hcp (not_mem_of_splitFirst_none hsp)
        | some pr0 =>
          obtain ⟨a0, b0⟩ := pr0
          exact ⟨a0, b0, rfl⟩
      have h1 : splitFirst ':' (p ++ X) = some (a0, b0 ++ X) :=
        splitFirst_append_some hsplit X
      rw [hsf] at h1
      injection h1 with h1
      obtain ⟨ha, _⟩ := Prod.mk.injEq .. ▸ h1
      rw [ha]
      exact splitScheme_fail_schemeOk hp hsplit
    · rcases hX with rfl | ⟨x0, X2, rfl, hxs, hxc⟩
      · rw [List.append_nil] at hsf
        rw [splitFirst_none_of hcp] at hsf
        cases hsf
      · cases hsfX : splitFirst ':' (x0 :: X2) with
        | none =>
          have hnone : splitFirst ':' (p ++ x0 :: X2) = none :=
            splitFirst_append_none hcp (not_mem_of_splitFirst_none hsfX)
          rw [hsf] at hnone
          cases hnone
        | some prX =>
          obtain ⟨aX, bX⟩ := prX
          have h1 : splitFirst ':' (p ++ x0 :: X2) = some (p ++ aX, bX) :=
            splitFirst_append_left hcp hsfX
          rw [hsf] at h1
          injection h1 with h1
          obtain ⟨ha, _⟩ := Prod.mk.injEq .. ▸ h1
          have hx0a : x0 ∈ aX := by
            obtain ⟨hdec, hnc⟩ := splitFirst_eq_some_of hsfX
            cases aX with
            | nil =>
              rw [List.nil_append] at hdec
              injection hdec with h2 _
              exact absurd h2 hxc
            | cons y t =>
              rw [List.cons_append] at hdec
              injection hdec with h2 _
              rw [h2]
              exact List.mem_cons_self y t
          have hx0mem : x0 ∈ a := by
            rw [ha]
            exact List.mem_append_right p hx0a
          exact schemeOk_false_of_bad hx0mem hxs

/-! ### Netloc / fragment / query step lemmas -/

theorem dropWhile_shape (p : Char → Bool) (l : S) :
    l.dropWhile p = [] ∨ ∃ c t, l.dropWhile p = c :: t ∧ p c = false := by
  induction l with
  | nil => left; rfl
  | cons c t ih =>
    rw [List.dropWhile_cons]
    by_cases hc : p c = true
    · rw [if_pos hc]
      exact ih
    · rw [if_neg hc]
      right
      exact ⟨c, t, rfl, by simpa using hc⟩

theorem splitNetloc_out (l : S) :
    splitNetloc l = ([], l) ∨
      ∃ rest, l = '/' :: '/' :: rest ∧
        splitNetloc l = (rest.takeWhile (fun c => ! isNetlocEnd c),
                         rest.dropWhile (fun c => ! isNetlocEnd c)) := by
  match l with
  | [] => left; rfl
  | [c] => left; rfl
  | c1 :: c2 :: rest =>
    by_cases h : c1 = '/' ∧ c2 = '/'
    · right
      refine ⟨rest, by rw [h.1, h.2], ?_⟩
      show (if c1 = '/' ∧ c2 = '/' then
          (List.takeWhile (fun c => ! isNetlocEnd c) rest,
            List.dropWhile (fun c => ! isNetlocEnd c) rest)
        else ([], c1 :: c2 :: rest)) =
        (List.takeWhile (fun c => ! isNetlocEnd c) rest,
          List.dropWhile (fun c => ! isNetlocEnd c) rest)
      rw [if_pos h]
    · left
      show (if c1 = '/' ∧ c2 = '/' then
          (List.takeWhile (fun c => ! isNetlocEnd c) rest,
            List.dropWhile (fun c => ! isNetlocEnd c) rest)
        else ([], c1 :: c2 :: rest)) = ([], c1 :: c2 :: rest)
      rw [if_neg h]

theorem splitFragment_parts (l : S) :
    ∃ t, (splitFragment l).1 ++ t = l ∧ '#' ∉ (splitFragment l).1 ∧
      ∀ x ∈ (splitFragment l).2, x ∈ l := by
  unfold splitFragment
  cases hsf : splitFirst '#' l with
  | none =>
    exact ⟨[], by simp, not_mem_of_splitFirst_none hsf, by simp⟩
  | some pr =>
    obtain ⟨a, b⟩ := pr
    obtain ⟨hdec, hna⟩ := splitFirst_eq_some_of hsf
    refine ⟨'#' :: b, hdec.symm, hna, ?_⟩
    intro x hx
    rw [hdec]
    simp [hx]

theorem splitQuery_parts (l : S) :
    ∃ t, (splitQuery l).1 ++ t = l ∧ '?' ∉ (splitQuery l).1 ∧
      ∀ x ∈ (splitQuery l).2, x ∈ l := by
  unfold splitQuery
  cases hsf : splitFirst '?' l with
  | none =>
    exact ⟨[], by simp, not_mem_of_splitFirst_none hsf, by simp⟩
  | some pr =>
    obtain ⟨a, b⟩ := pr
    obtain ⟨hdec, hna⟩ := splitFirst_eq_some_of hsf
    refine ⟨'?' :: b, hdec.symm, hna, ?_⟩
    intro x hx
    rw [hdec]
    simp [hx]

theorem splitFragment_no_frag {l : S} (h : '#' ∉ l) : splitFragment l = (l, []) := by
  unfold splitFragment
  rw [splitFirst_none_of h]

theorem splitFragment_at {a : S} (ha : '#' ∉ a) (b : S) :
    splitFragment (a ++ '#' :: b) = (a, b) := by
  unfold splitFragment
  rw [splitFirst_boundary ha b]

theorem splitQuery_no_query {l : S} (h : '?' ∉ l) : splitQuery l = (l, []) := by
  unfold splitQuery
  rw [splitFirst_none_of h]

theorem splitQuery_at {a : S} (ha : '?' ∉ a) (b : S) :
    splitQuery (a ++ '?' :: b) = (a, b) := by
  unfold splitQuery
  rw [splitFirst_boundary ha b]

/-! ### Unsafe-character bookkeeping -/

/-- No character of `l` is one that `urlsplit` strips (tab, CR, LF). -/
def noU (l : S) : Prop := ∀ x ∈ l, isUrlUnsafe x = false

theorem noU_nil : noU [] := by
  intro x hx
  cases hx

theorem noU_removeUnsafe (u : S) : noU (removeUnsafe u) := by
  intro x hx
  have := (List.mem_filter.mp hx).2
  simpa using this

theorem noU_sub {l m : S} (h : noU l) (hs : ∀ x ∈ m, x ∈ l) : noU m :=
  fun x hx => h x (hs x hx)

theorem noU_append {a b : S} (ha : noU a) (hb : noU b) : noU (a ++ b) := by
  intro x hx
  rcases List.mem_append.mp hx with h | h
  · exact ha x h
  · exact hb x h

theorem noU_cons {c : Char} {a : S} (hc : isUrlUnsafe c = false) (ha : noU a) :
    noU (c :: a) := by
  intro x hx
  rcases List.mem_cons.mp hx with rfl | hx
  · exact hc
  · exact ha x hx

theorem noU_pyLower {l : S} (h : noU l) : noU (pyLower l) := by
  intro x hx
  rcases List.mem_map.mp hx with ⟨y, hy, rfl⟩
  have ht := pyLowerChar_toNat y
  have hy2 := h y hy
  simp only [isUrlUnsafe, decide_eq_false_iff_not] at hy2 ⊢
  by_cases hc : 65 ≤ y.toNat ∧ y.toNat ≤ 90
  · rw [if_pos hc] at ht
    omega
  · rw [if_neg hc] at ht
    omega

theorem removeUnsafe_eq_self {l : S} (h : noU l) : removeUnsafe l = l := by
  unfold removeUnsafe
  rw [List.filter_eq_self]
  intro a ha
  simp [h a ha]

/-- `urlsplit` written as an explicit composition. -/
theorem urlsplit_eq (url : S) :
    urlsplit url = ⟨(splitScheme (removeUnsafe url)).1,
      (splitNetloc (splitScheme (removeUnsafe url)).2).1,
      (splitQuery (splitFragment (splitNetloc (splitScheme (removeUnsafe url)).2).2).1).1,
      (splitQuery (splitFragment (splitNetloc (splitScheme (removeUnsafe url)).2).2).1).2,
      (splitFragment (splitNetloc (splitScheme (removeUnsafe url)).2).2).2⟩ := rfl

/-- Structural invariants of every `urlsplit` result, used to show that
`urlunsplit` followed by `urlsplit` restores the components. -/
theorem urlsplit_invariants (u : S) :
    ((urlsplit u).scheme = [] → splitScheme (urlsplit u).path = ([], (urlsplit u).path)) ∧
    ((urlsplit u).scheme ≠ [] → schemeOk (urlsplit u).scheme = true ∧
      pyLower (urlsplit u).scheme = (urlsplit u).scheme ∧ ':' ∉ (urlsplit u).scheme) ∧
    (∀ x ∈ (urlsplit u).netloc, isNetlocEnd x = false) ∧
    '#' ∉ (urlsplit u).path ∧ '?' ∉ (urlsplit u).path ∧
    ((urlsplit u).netloc ≠ [] → (urlsplit u).path = [] ∨
      ∃ p2, (urlsplit u).path = '/' :: p2) ∧
    noU (urlsplit u).scheme ∧ noU (urlsplit u).netloc ∧ noU (urlsplit u).path ∧
    noU (urlsplit u).fragment := by
  simp only [urlsplit_eq]
  set u0 := removeUnsafe u with hu0def
  have hnoU0 : noU u0 := noU_removeUnsafe u
  have hs1 : (splitScheme u0).1 = [] → splitScheme u0 = ([], u0) := by
    intro he
    rcases splitScheme_out u0 with h | ⟨pre, post, hsf, hok, h⟩
    · exact h
    · rw [h] at he
      have hpre : pre = [] := by
        cases pre with
        | nil => rfl
        | cons c t => simp [pyLower] at he
      exact absurd hpre (schemeOk_ne_nil hok)
  have hs2 : (splitScheme u0).1 ≠ [] → schemeOk (splitScheme u0).1 = true ∧
      pyLower (splitScheme u0).1 = (splitScheme u0).1 ∧ ':' ∉ (splitScheme u0).1 ∧
      noU (splitScheme u0).1 := by
    intro hne
    rcases splitScheme_out u0 with h | ⟨pre, post, hsf, hok, h⟩
    · rw [h] at hne
      exact absurd rfl hne
    · rw [h]
      obtain ⟨hdec, _⟩ := splitFirst_eq_some_of hsf
      refine ⟨schemeOk_pyLower hok, pyLower_idem pre, pyLower_no_colon (schemeOk_all hok), ?_⟩
      apply noU_pyLower
      apply noU_sub hnoU0
      intro x hx
      rw [hdec]
      simp [hx]
  have hr1 : ∀ x ∈ (splitScheme u0).2, x ∈ u0 := by
    rcases splitScheme_out u0 with h | ⟨pre, post, hsf, hok, h⟩
    · rw [h]
      intro x hx
      exact hx
    · rw [h]
      obtain ⟨hdec, _⟩ := splitFirst_eq_some_of hsf
      intro x hx
      rw [hdec]
      simp [hx]
  set r1 := (splitScheme u0).2 with hr1def
  have hn1 : ∀ x ∈ (splitNetloc r1).1, isNetlocEnd x = false := by
    rcases splitNetloc_out r1 with h | ⟨rest, hsh, h⟩
    · rw [h]
      intro x hx
      cases hx
    · rw [h]
      intro x hx
      have := List.mem_takeWhile_imp hx
      simpa using this
  have hnsub : ∀ x ∈ (splitNetloc r1).1, x ∈ r1 := by
    rcases splitNetloc_out r1 with h | ⟨rest, hsh, h⟩
    · rw [h]
      intro x hx
      cases hx
    · rw [h]
      intro x hx
      have hx2 : x ∈ rest := (List.takeWhile_sublist _).subset hx
      rw [hsh]
      simp [hx2]
  have hn2 : ∀ x ∈ (splitNetloc r1).2, x ∈ r1 := by
    rcases splitNetloc_out r1 with h | ⟨rest, hsh, h⟩
    · rw [h]
      intro x hx
      exact hx
    · rw [h]
      intro x hx
      have hx2 : x ∈ rest := (List.dropWhile_sublist _).subset hx
      rw [hsh]
      simp [hx2]
  have hr2shape : splitNetloc r1 = ([], r1) ∨ ((splitNetloc r1).2 = [] ∨
      ∃ c t, (splitNetloc r1).2 = c :: t ∧ isNetlocEnd c = true) := by
    rcases splitNetloc_out r1 with h | ⟨rest, hsh, h⟩
    · left
      exact h
    · right
      rw [h]
      rcases dropWhile_shape (fun c => ! isNetlocEnd c) rest with h2 | ⟨c, t, h2, h3⟩
      · left
        exact h2
      · right
        exact ⟨c, t, h2, by simpa using h3⟩
  set r2 := (splitNetloc r1).2 with hr2def
  obtain ⟨tf, htf, hfst_nofrag, hfrag_sub⟩ := splitFragment_parts r2
  obtain ⟨tq, htq, hp_query, _⟩ := splitQuery_parts (splitFragment r2).1
  set p := (splitQuery (splitFragment r2).1).1 with hpdef
  have hp_frag : '#' ∉ p := by
    intro hm
    apply hfst_nofrag
    rw [← htq]
    exact List.mem_append_left tq hm
  have hpr2 : p ++ (tq ++ tf) = r2 := by
    rw [← List.append_assoc, htq, htf]
  have hp_sub : ∀ x ∈ p, x ∈ r2 := by
    intro x hx
    rw [← hpr2]
    exact List.mem_append_left _ hx
  have hE : (splitNetloc r1).1 ≠ [] → p = [] ∨ ∃ p2, p = '/' :: p2 := by
    intro hne
    rcases hr2shape with h | h
    · rw [h] at hne
      exact absurd rfl hne
    · rcases h with h | ⟨c, t, hsh, hend⟩
      · left
        rw [h] at hpr2
        exact (List.append_eq_nil.mp hpr2).1
      · cases hcasep : p with
        | nil => left; rfl
        | cons x p2 =>
          right
          rw [hcasep, hsh, List.cons_append] at hpr2
          injection hpr2 with hx _
          have hcs : c = '/' ∨ c = '?' ∨ c = '#' := by
            simpa [isNetlocEnd] using hend
          have hxp : x ∈ p := by
            rw [hcasep]
            exact List.mem_cons_self x p2
          rcases hcs with hc | hc | hc
          · exact ⟨p2, by rw [hx, hc]⟩
          · rw [hc] at hx
            exact absurd (hx ▸ hxp) hp_query
          · rw [hc] at hx
            exact absurd (hx ▸ hxp) hp_frag
  have hB : (splitScheme u0).1 = [] → splitScheme p = ([], p) := by
    intro he
    have hfail := hs1 he
    have hr1u0 : r1 = u0 := by rw [hr1def, hfail]
    rcases hr2shape with h | h
    · have hr2r1 : r2 = r1 := by rw [hr2def, h]
      exact splitScheme_prefix_fail (by rw [hpr2, hr2r1, hr1u0]) hfail
    · rcases h with h | ⟨c, t, hsh, hend⟩
      · have hp0 : p = [] := by
          rw [h] at hpr2
          exact (List.append_eq_nil.mp hpr2).1
        rw [hp0]
        rfl
      · cases hcasep : p with
        | nil => rfl
        | cons x p2 =>
          rw [hcasep, hsh, List.cons_append] at hpr2
          injection hpr2 with hx _
          have hcs : c = '/' ∨ c = '?' ∨ c = '#' := by
            simpa [isNetlocEnd] using hend
          have halpha : isAsciiAlpha x = false := by
            rcases hcs with hc | hc | hc <;> rw [hx, hc] <;> decide
          exact splitScheme_head_not_alpha halpha
  refine ⟨hB, ?_, hn1, hp_frag, hp_query, hE, ?_, ?_, ?_, ?_⟩
  · intro hne
    obtain ⟨h1, h2, h3, _⟩ := hs2 hne
    exact ⟨h1, h2, h3⟩
  · by_cases hsc : (splitScheme u0).1 = []
    · rw [hsc]
      exact noU_nil
    · exact (hs2 hsc).2.2.2
  · exact noU_sub hnoU0 (fun x hx => hr1 x (hnsub x hx))
  · exact noU_sub hnoU0 (fun x hx => hr1 x (hn2 x (hp_sub x hx)))
  · exact noU_sub hnoU0 (fun x hx => hr1 x (hn2 x (hfrag_sub x hx)))

/-! ### Re-splitting the reassembled URL -/

theorem splitNetloc_not_slashslash {l : S} (h : ∀ rest, ¬ (l = '/' :: '/' :: rest)) :
    splitNetloc l = ([], l) := by
  match l with
  | [] => rfl
  | [c] => rfl
  | c1 :: c2 :: rest =>
    show (if c1 = '/' ∧ c2 = '/' then
        (List.takeWhile (fun c => ! isNetlocEnd c) rest,
          List.dropWhile (fun c => ! isNetlocEnd c) rest)
      else ([], c1 :: c2 :: rest)) = ([], c1 :: c2 :: rest)
    rw [if_neg (fun hc => h rest (by rw [hc.1, hc.2]))]

theorem splitNetloc_slashslash (inner : S) :
    splitNetloc ('/' :: '/' :: inner) =
      (inner.takeWhile (fun c => ! isNetlocEnd c),
       inner.dropWhile (fun c => ! isNetlocEnd c)) := by
  show (if ('/' : Char) = '/' ∧ ('/' : Char) = '/' then
      (List.takeWhile (fun c => ! isNetlocEnd c) inner,
        List.dropWhile (fun c => ! isNetlocEnd c) inner)
    else ([], '/' :: '/' :: inner)) =
    (inner.takeWhile (fun c => ! isNetlocEnd c), inner.dropWhile (fun c => ! isNetlocEnd c))
  rw [if_pos ⟨rfl, rfl⟩]

/-- Head shape of the reassembled query/fragment suffix. -/
theorem qfsuf_shape (q2 f : S) :
    (if q2 = [] then ([] : S) else '?' :: q2) ++ (if f = [] then ([] : S) else '#' :: f) = []
      ∨ ∃ x0 X2,
        (if q2 = [] then ([] : S) else '?' :: q2) ++ (if f = [] then ([] : S) else '#' :: f) =
          x0 :: X2 ∧ (x0 = '?' ∨ x0 = '#') := by
  by_cases hq2 : q2 = []
  · by_cases hf : f = []
    · left
      rw [if_pos hq2, if_pos hf]
      rfl
    · right
      rw [if_pos hq2, if_neg hf]
      exact ⟨'#', f, rfl, Or.inr rfl⟩
  · right
    rw [if_neg hq2]
    exact ⟨'?', q2 ++ (if f = [] then ([] : S) else '#' :: f), rfl, Or.inl rfl⟩

/-- After scheme and netloc are stripped, re-splitting the rebuilt tail
recovers the path, the replacement query and the fragment. -/
theorem resplit_tail (p q2 f : S) (hp1 : '#' ∉ p) (hp2 : '?' ∉ p) (hq1 : '#' ∉ q2) :
    splitFragment (p ++ ((if q2 = [] then ([] : S) else '?' :: q2) ++
        (if f = [] then ([] : S) else '#' :: f))) =
      (p ++ (if q2 = [] then ([] : S) else '?' :: q2), f) ∧
    splitQuery (p ++ (if q2 = [] then ([] : S) else '?' :: q2)) = (p, q2) := by
  have hbase_nofrag : '#' ∉ p ++ (if q2 = [] then ([] : S) else '?' :: q2) := by
    intro hm
    rcases List.mem_append.mp hm with h | h
    · exact hp1 h
    · by_cases hq2 : q2 = []
      · rw [if_pos hq2] at h
        cases h
      · rw [if_neg hq2] at h
        rcases List.mem_cons.mp h with h | h
        · exact absurd (congrArg Char.toNat h) (by decide)
        · exact hq1 h
  constructor
  · by_cases hf : f = []
    · rw [if_pos hf, List.append_nil, splitFragment_no_frag hbase_nofrag, hf]
    · rw [if_neg hf, ← List.append_assoc, splitFragment_at hbase_nofrag f]
  · by_cases hq2 : q2 = []
    · rw [if_pos hq2, List.append_nil, splitQuery_no_query hp2, hq2]
    · rw [if_neg hq2, splitQuery_at hp2 q2]

/-- Re-splitting the body (netloc and path part followed by the rebuilt
suffix) recovers the netloc and leaves exactly `path ++ suffix`. -/
theorem resplit_netloc (n p q2 f : S)
    (hC : ∀ x ∈ n, isNetlocEnd x = false)
    (hD1 : '#' ∉ p) (hD2 : '?' ∉ p)
    (hadj : (n ≠ [] ∨ (p ≠ [] ∧ p.take 2 = ['/', '/'])) → (p = [] ∨ ∃ p2, p = '/' :: p2)) :
    splitNetloc ((if n ≠ [] ∨ (p ≠ [] ∧ p.take 2 = ['/', '/']) then '/' :: '/' :: (n ++ p)
        else p) ++
      ((if q2 = [] then ([] : S) else '?' :: q2) ++ (if f = [] then ([] : S) else '#' :: f))) =
    (n, p ++ ((if q2 = [] then ([] : S) else '?' :: q2) ++
      (if f = [] then ([] : S) else '#' :: f))) := by
  by_cases hbr : n ≠ [] ∨ (p ≠ [] ∧ p.take 2 = ['/', '/'])
  · rw [if_pos hbr]
    rw [show ('/' :: '/' :: (n ++ p)) ++ ((if q2 = [] then ([] : S) else '?' :: q2) ++
        (if f = [] then ([] : S) else '#' :: f)) =
      '/' :: '/' :: (n ++ (p ++ ((if q2 = [] then ([] : S) else '?' :: q2) ++
        (if f = [] then ([] : S) else '#' :: f)))) by simp]
    rw [splitNetloc_slashslash]
    have hCpred : ∀ x ∈ n, (! isNetlocEnd x) = true := by
      intro x hx
      simp [hC x hx]
    rw [takeWhile_append_all hCpred, dropWhile_append_all hCpred]
    have hWshape : (p ++ ((if q2 = [] then ([] : S) else '?' :: q2) ++
        (if f = [] then ([] : S) else '#' :: f))) = [] ∨
        ∃ c t, (p ++ ((if q2 = [] then ([] : S) else '?' :: q2) ++
          (if f = [] then ([] : S) else '#' :: f))) = c :: t ∧ isNetlocEnd c = true := by
      rcases hadj hbr with hp0 | ⟨p2, hp⟩
      · rw [hp0, List.nil_append]
        rcases qfsuf_shape q2 f with h | ⟨x0, X2, h, hx0⟩
        · left
          exact h
        · right
          refine ⟨x0, X2, h, ?_⟩
          rcases hx0 with rfl | rfl <;> decide
      · right
        rw [hp, List.cons_append]
        exact ⟨'/', _, rfl, by decide⟩
    rcases hWshape with h | ⟨c, t, h, hend⟩
    · rw [h]
      simp
    · rw [h, List.takeWhile_cons, List.dropWhile_cons]
      rw [if_neg (by simp [hend]), if_neg (by simp [hend])]
      rw [← h]
      simp
  · rw [if_neg hbr]
    push_neg at hbr
    obtain ⟨hn0, hpp⟩ := hbr
    rw [hn0]
    apply splitNetloc_not_slashslash
    intro rest hcon
    cases hp : p with
    | nil =>
      rw [hp, List.nil_append] at hcon
      rcases qfsuf_shape q2 f with h | ⟨x0, X2, h, hx0⟩
      · rw [h] at hcon
        cases hcon
      · rw [h] at hcon
        injection hcon with h1 _
        rcases hx0 with rfl | rfl <;> exact absurd (congrArg Char.toNat h1) (by decide)
    | cons x1 t1 =>
      cases ht1 : t1 with
      | nil =>
        rw [hp, ht1] at hcon
        rw [List.cons_append, List.nil_append] at hcon
        injection hcon with h1 h2
        rcases qfsuf_shape q2 f with h | ⟨x0, X2, h, hx0⟩
        · rw [h] at h2
          cases h2
        · rw [h] at h2
          injection h2 with h3 _
          rcases hx0 with rfl | rfl <;> exact absurd (congrArg Char.toNat h3) (by decide)
      | cons x2 t2 =>
        rw [hp, ht1] at hpp
        rw [hp, ht1, List.cons_append, List.cons_append] at hcon
        injection hcon with h1 h2
        injection h2 with h2 _
        apply hpp
        · simp
        · rw [h1, h2]
          rfl

theorem resplit_scheme_none (n p q2 f : S) (hp : splitScheme p = ([], p)) :
    splitScheme ((if n ≠ [] ∨ (p ≠ [] ∧ p.take 2 = ['/', '/']) then '/' :: '/' :: (n ++ p)
        else p) ++
      ((if q2 = [] then ([] : S) else '?' :: q2) ++ (if f = [] then ([] : S) else '#' :: f))) =
    ([], (if n ≠ [] ∨ (p ≠ [] ∧ p.take 2 = ['/', '/']) then '/' :: '/' :: (n ++ p) else p) ++
      ((if q2 = [] then ([] : S) else '?' :: q2) ++
        (if f = [] then ([] : S) else '#' :: f))) := by
  by_cases hbr : n ≠ [] ∨ (p ≠ [] ∧ p.take 2 = ['/', '/'])
  · rw [if_pos hbr, List.cons_append, List.cons_append]
    exact splitScheme_head_not_alpha (by decide)
  · rw [if_neg hbr]
    apply splitScheme_append_fail p _ hp
    rcases qfsuf_shape q2 f with h | ⟨x0, X2, h, hx0⟩
    · left
      exact h
    · right
      refine ⟨x0, X2, h, ?_, ?_⟩
      · rcases hx0 with rfl | rfl <;> decide
      · rcases hx0 with rfl | rfl <;> decide

theorem urlunsplit_norm (s n p q2 f : S)
    (hadj1 : (n ≠ [] ∨ (p ≠ [] ∧ p.take 2 = ['/', '/'])) → (p = [] ∨ p.take 1 = ['/'])) :
    urlunsplit ⟨s, n, p, q2, f⟩ =
      (if s = [] then ([] : S) else s ++ [':']) ++
        ((if n ≠ [] ∨ (p ≠ [] ∧ p.take 2 = ['/', '/']) then '/' :: '/' :: (n ++ p) else p) ++
          ((if q2 = [] then ([] : S) else '?' :: q2) ++
            (if f = [] then ([] : S) else '#' :: f))) := by
  by_cases hbr : n ≠ [] ∨ (p ≠ [] ∧ p.take 2 = ['/', '/'])
  · have hin : (if p ≠ [] ∧ p.take 1 ≠ ['/'] then '/' :: p else p) = p := by
      rcases hadj1 hbr with h | h
      · rw [if_neg (by simp [h])]
      · rw [if_neg (by simp [h])]
    by_cases hs : s = [] <;> by_cases hq2 : q2 = [] <;> by_cases hf : f = [] <;>
      simp [urlunsplit, hbr, hin, hs, hq2, hf, List.append_assoc]
  · by_cases hs : s = [] <;> by_cases hq2 : q2 = [] <;> by_cases hf : f = [] <;>
      simp [urlunsplit, hbr, hs, hq2, hf, List.append_assoc]

/-- Round trip: re-splitting the reassembled URL (with any well-behaved
replacement query) restores all five components. -/
theorem unsplit_resplit (s n p q2 f : S)
    (hB1 : s = [] → splitScheme p = ([], p))
    (hB2 : s ≠ [] → schemeOk s = true ∧ pyLower s = s ∧ ':' ∉ s)
    (hC : ∀ x ∈ n, isNetlocEnd x = false)
    (hD1 : '#' ∉ p) (hD2 : '?' ∉ p)
    (hE : n ≠ [] → p = [] ∨ ∃ p2, p = '/' :: p2)
    (hq : ∀ x ∈ q2, ¬(x = '#') ∧ ¬(x = '?') ∧ ¬(x = ':') ∧ isUrlUnsafe x = false)
    (hA1 : noU s) (hA2 : noU n) (hA3 : noU p) (hA4 : noU f) :
    urlsplit (urlunsplit ⟨s, n, p, q2, f⟩) = ⟨s, n, p, q2, f⟩ := by
  have hadj : (n ≠ [] ∨ (p ≠ [] ∧ p.take 2 = ['/', '/'])) →
      (p = [] ∨ ∃ p2, p = '/' :: p2) := by
    intro hbr
    rcases hbr with hn | ⟨hp, h2⟩
    · exact hE hn
    · right
      cases p with
      | nil => exact absurd rfl hp
      | cons a t =>
        refine ⟨t, ?_⟩
        rw [show List.take 2 (a :: t) = a :: List.take 1 t from rfl] at h2
        injection h2 with h2a _
        rw [h2a]
  have hadj1 : (n ≠ [] ∨ (p ≠ [] ∧ p.take 2 = ['/', '/'])) →
      (p = [] ∨ p.take 1 = ['/']) := by
    intro hbr
    rcases hadj hbr with h | ⟨p2, h⟩
    · left
      exact h
    · right
      rw [h]
      rfl
  rw [urlunsplit_norm s n p q2 f hadj1]
  have hnoUq2 : noU q2 := fun x hx => (hq x hx).2.2.2
  have hnoUX : noU ((if q2 = [] then ([] : S) else '?' :: q2) ++
      (if f = [] then ([] : S) else '#' :: f)) := by
    apply noU_append
    · by_cases hq2 : q2 = []
      · rw [if_pos hq2]
        exact noU_nil
      · rw [if_neg hq2]
        exact noU_cons (by decide) hnoUq2
    · by_cases hf : f = []
      · rw [if_pos hf]
        exact noU_nil
      · rw [if_neg hf]
        exact noU_cons (by decide) hA4
  have hnoUbody : noU (if n ≠ [] ∨ (p ≠ [] ∧ p.take 2 = ['/', '/'])
      then '/' :: '/' :: (n ++ p) else p) := by
    by_cases hbr : n ≠ [] ∨ (p ≠ [] ∧ p.take 2 = ['/', '/'])
    · rw [if_pos hbr]
      exact noU_cons (by decide) (noU_cons (by decide) (noU_append hA2 hA3))
    · rw [if_neg hbr]
      exact hA3
  have hnoUpre : noU (if s = [] then ([] : S) else s ++ [':']) := by
    by_cases hs : s = []
    · rw [if_pos hs]
      exact noU_nil
    · rw [if_neg hs]
      exact noU_append hA1 (noU_cons (by decide) noU_nil)
  have hnoUall := noU_append hnoUpre (noU_append hnoUbody hnoUX)
  have hnet := resplit_netloc n p q2 f hC hD1 hD2 hadj
  have hqf : '#' ∉ q2 := fun hm => (hq _ hm).1 rfl
  obtain ⟨hfragEq, hqueryEq⟩ := resplit_tail p q2 f hD1 hD2 hqf
  rw [urlsplit_eq, removeUnsafe_eq_self hnoUall]
  by_cases hs : s = []
  · rw [if_pos hs, List.nil_append]
    have hscheme := resplit_scheme_none n p q2 f (hB1 hs)
    rw [hscheme]
    simp only [hnet, hfragEq, hqueryEq, hs]
  · rw [if_neg hs]
    rw [show (s ++ [':']) ++
        ((if n ≠ [] ∨ (p ≠ [] ∧ p.take 2 = ['/', '/']) then '/' :: '/' :: (n ++ p) else p) ++
          ((if q2 = [] then ([] : S) else '?' :: q2) ++
            (if f = [] then ([] : S) else '#' :: f))) =
      s ++ ':' ::
        ((if n ≠ [] ∨ (p ≠ [] ∧ p.take 2 = ['/', '/']) then '/' :: '/' :: (n ++ p) else p) ++
          ((if q2 = [] then ([] : S) else '?' :: q2) ++
            (if f = [] then ([] : S) else '#' :: f))) by simp]
    obtain ⟨hok, hlow, hcol⟩ := hB2 hs
    rw [splitScheme_of_scheme _ hok hcol hlow]
    simp only [hnet, hfragEq, hqueryEq]

/-- `addUtm` written as an explicit composition. -/
theorem addUtm_eq (url : S) (params : List (S × S)) :
    addUtm url params = urlunsplit ⟨(urlsplit url).scheme, (urlsplit url).netloc,
      (urlsplit url).path,
      urlencode (parseQsl (urlsplit url).query ++ params.filter (fun kv =>
        decide (¬ kv.2 = []) && decide (¬ pyLower kv.1 ∈
          (parseQsl (urlsplit url).query).map (fun kv => pyLower kv.1)))),
      (urlsplit url).fragment⟩ := rfl

/-- The heart of the idempotence argument: applying `addUtm` to its own
output changes nothing, for every input string and parameter list. -/
theorem addUtm_idem (u : S) (params : List (S × S)) :
    addUtm (addUtm u params) params = addUtm u params := by
  obtain ⟨i1, i2, i3, i4, i5, i6, i7, i8, i9, i10⟩ := urlsplit_invariants u
  set r := urlsplit u with hrdef
  set pairs := parseQsl r.query with hpairsdef
  set newPairs := pairs ++ params.filter (fun kv =>
    decide (¬ kv.2 = []) && decide (¬ pyLower kv.1 ∈
      pairs.map (fun kv => pyLower kv.1))) with hnewdef
  have hout : addUtm u params =
      urlunsplit ⟨r.scheme, r.netloc, r.path, urlencode newPairs, r.fragment⟩ := rfl
  have hq : ∀ x ∈ urlencode newPairs,
      ¬ (x = '#') ∧ ¬ (x = '?') ∧ ¬ (x = ':') ∧ isUrlUnsafe x = false :=
    fun x hx => urlencode_not_special hx
  have hresplit : urlsplit (urlunsplit
        ⟨r.scheme, r.netloc, r.path, urlencode newPairs, r.fragment⟩) =
      ⟨r.scheme, r.netloc, r.path, urlencode newPairs, r.fragment⟩ :=
    unsplit_resplit r.scheme r.netloc r.path (urlencode newPairs) r.fragment
      i1 i2 i3 i4 i5 i6 hq i7 i8 i9 i10
  rw [hout, addUtm_eq]
  simp only [hresplit]
  rw [parseQsl_urlencode newPairs]
  have hfilter2 : params.filter (fun kv =>
      decide (¬ kv.2 = []) && decide (¬ pyLower kv.1 ∈
        newPairs.map (fun kv => pyLower kv.1))) = [] := by
    rw [List.filter_eq_nil]
    intro kv hkv
    by_cases hv : kv.2 = []
    · simp [hv]
    · by_cases hex : pyLower kv.1 ∈ pairs.map (fun kv => pyLower kv.1)
      · have hmem : pyLower kv.1 ∈ newPairs.map (fun kv => pyLower kv.1) := by
          rw [hnewdef, List.map_append]
          exact List.mem_append_left _ hex
        simp [hmem]
      · have hkvf : kv ∈ params.filter (fun kv =>
            decide (¬ kv.2 = []) && decide (¬ pyLower kv.1 ∈
              pairs.map (fun kv => pyLower kv.1))) :=
          List.mem_filter.mpr ⟨hkv, by simp [hv, hex]⟩
        have hmem : pyLower kv.1 ∈ newPairs.map (fun kv => pyLower kv.1) := by
          rw [hnewdef, List.map_append]
          exact List.mem_append_right _ (List.mem_map.mpr ⟨kv, hkvf, rfl⟩)
        simp [hmem]
  rw [hfilter2, List.append_nil]

/-! ### Claim theorems: tracking URL builder, slug normalizer, unique paths -/

/-- C3: the tracking URL builder is idempotent — for every URL string `u`
and parameter list `params`, applying `add_utm` to its own output with the
same parameters yields the same string (proved for all strings, which
subsumes all well-formed URLs). -/
theorem claim_C3_addUtm_idempotent (u : S) (params : List (S × S)) :
    addUtm (addUtm u params) params = addUtm u params :=
  addUtm_idem u params

/-- Number of query pairs whose lower-cased key is `κ`. -/
def countKey (κ : S) (ps : List (S × S)) : Nat :=
  (ps.filter (fun kv => decide (pyLower kv.1 = κ))).length

/-- C4: `add_utm` appends exactly the parameters with a non-empty value
whose lower-cased key is not already present; existing query pairs are kept
unchanged, in order, with the appended ones after them; all non-query URL
components are untouched; and a parameter whose key is already present
(such as `utm_source` on a URL already carrying `utm_source=other`) adds no
second pair with that key. -/
theorem claim_C4_addUtm_appends (u : S) (params : List (S × S)) :
    parseQsl (urlsplit (addUtm u params)).query =
      parseQsl (urlsplit u).query ++ params.filter (fun kv =>
        decide (¬ kv.2 = []) && decide (¬ pyLower kv.1 ∈
          (parseQsl (urlsplit u).query).map (fun kv => pyLower kv.1))) ∧
    (urlsplit (addUtm u params)).scheme = (urlsplit u).scheme ∧
    (urlsplit (addUtm u params)).netloc = (urlsplit u).netloc ∧
    (urlsplit (addUtm u params)).path = (urlsplit u).path ∧
    (urlsplit (addUtm u params)).fragment = (urlsplit u).fragment ∧
    ∀ kv ∈ params, pyLower kv.1 ∈
        (parseQsl (urlsplit u).query).map (fun kv => pyLower kv.1) →
      countKey (pyLower kv.1) (parseQsl (urlsplit (addUtm u params)).query) =
        countKey (pyLower kv.1) (parseQsl (urlsplit u).query) := by
  obtain ⟨i1, i2, i3, i4, i5, i6, i7, i8, i9, i10⟩ := urlsplit_invariants u
  set r := urlsplit u with hrdef
  set pairs := parseQsl r.query with hpairsdef
  set newPairs := pairs ++ params.filter (fun kv =>
    decide (¬ kv.2 = []) && decide (¬ pyLower kv.1 ∈
      pairs.map (fun kv => pyLower kv.1))) with hnewdef
  have hout : addUtm u params =
      urlunsplit ⟨r.scheme, r.netloc, r.path, urlencode newPairs, r.fragment⟩ := rfl
  have hq : ∀ x ∈ urlencode newPairs,
      ¬ (x = '#') ∧ ¬ (x = '?') ∧ ¬ (x = ':') ∧ isUrlUnsafe x = false :=
    fun x hx => urlencode_not_special hx
  have hresplit : urlsplit (urlunsplit
        ⟨r.scheme, r.netloc, r.path, urlencode newPairs, r.fragment⟩) =
      ⟨r.scheme, r.netloc, r.path, urlencode newPairs, r.fragment⟩ :=
    unsplit_resplit r.scheme r.netloc r.path (urlencode newPairs) r.fragment
      i1 i2 i3 i4 i5 i6 hq i7 i8 i9 i10
  rw [hout]
  simp only [hresplit]
  rw [parseQsl_urlencode newPairs]
  refine ⟨rfl, trivial, trivial, trivial, trivial, ?_⟩
  intro kv _ hex
  rw [hnewdef]
  unfold countKey
  rw [List.filter_append, List.length_append]
  have hzero : (List.filter (fun kv2 => decide (pyLower kv2.1 = pyLower kv.1))
      (params.filter (fun kv2 => decide (¬ kv2.2 = []) && decide (¬ pyLower kv2.1 ∈
        pairs.map (fun kv2 => pyLower kv2.1))))).length = 0 := by
    rw [List.length_eq_zero, List.filter_eq_nil]
    intro kv2 hkv2
    have hnotin : ¬ pyLower kv2.1 ∈ pairs.map (fun kv2 => pyLower kv2.1) := by
      have := (List.mem_filter.mp hkv2).2
      simp only [Bool.and_eq_true, decide_eq_true_eq] at this
      exact this.2
    intro hcon
    simp only [decide_eq_true_eq] at hcon
    rw [hcon] at hnotin
    exact hnotin hex
  omega

/-- C7: for every input string, `slugify` returns the lowercase form with
every maximal run of characters outside `[a-z0-9]` collapsed to a single
hyphen, leading/trailing hyphens trimmed, with the literal token `"item"`
as fallback for an empty result (`claimSlug` states the specification's
wording directly); as a Lean function it is pure and total by construction. -/
theorem claim_C7_slugify_spec (text : S) : slugify text = claimSlug text :=
  slugify_eq_claimSlug text

/-- C9: for every directory state `fs`, base name and extension,
`unique_path` returns a name not currently existing (never overwrites), and
a second item sanitizing to the same base, allocated after the first file
now exists, receives a distinct name that also overwrites nothing. -/
theorem claim_C9_uniquePath_safe (fs : List S) (base ext : S) :
    uniquePath fs base ext ∉ fs ∧
    uniquePath (uniquePath fs base ext :: fs) base ext ∉ fs ∧
    uniquePath (uniquePath fs base ext :: fs) base ext ≠ uniquePath fs base ext := by
  have h1 := uniquePath_not_mem fs base ext
  have h2 := uniquePath_not_mem (uniquePath fs base ext :: fs) base ext
  refine ⟨h1, fun hmem => h2 (List.mem_cons_of_mem _ hmem), fun heq => ?_⟩
  exact h2 (by rw [heq]; exact List.mem_cons_self _ _)

/-! ### Logo overlay geometry (qr-generator-logo.py) -/

/-- Python `int()` on a rational: truncation toward zero. -/
def pyInt (q : ℚ) : ℤ := if q < 0 then -Int.floor (-q) else Int.floor q

/-- Python `//` on integers: floor division. -/
def pyFloorDiv (a b : ℤ) : ℤ := Int.fdiv a b

/-- The rectangle-and-image bounds an overlay places on the symbol: the
white backing rectangle `(rectX, rectY, rectW, rectH)` and the logo image
`(imgX, imgY, imgW, imgH)`. -/
structure LogoGeom where
  rectX : ℤ
  rectY : ℤ
  rectW : ℤ
  rectH : ℤ
  imgX : ℤ
  imgY : ℤ
  imgW : ℤ
  imgH : ℤ
deriving DecidableEq

/-- The geometry computed by `add_logo_on_pil` (raster overlay): `target_w =
max(1, int(W * logo_scale))`, `aspect = lw / lh if lh else 1`, `new_h =
max(1, int(new_w / aspect))`, background `+2*pad`, centered with `//2`,
logo composited at `(x0 + pad, y0 + pad)`.  Float arithmetic is modelled
exactly over ℚ. -/
def addLogoOnPilGeom (W H lw lh : ℤ) (logo_scale : ℚ) (pad : ℤ) : LogoGeom :=
  let target_w := max 1 (pyInt ((W : ℚ) * logo_scale))
  let aspect : ℚ := if lh = 0 then 1 else (lw : ℚ) / (lh : ℚ)
  let new_w := target_w
  let new_h := max 1 (pyInt ((new_w : ℚ) / aspect))
  let bg_w := new_w + 2 * pad
  let bg_h := new_h + 2 * pad
  let x0 := pyFloorDiv (W - bg_w) 2
  let y0 := pyFloorDiv (H - bg_h) 2
  ⟨x0, y0, bg_w, bg_h, x0 + pad, y0 + pad, new_w, new_h⟩

/-- The geometry computed by `embed_logo_in_svg` (vector overlay): `Lw =
max(1, int(total_w * logo_scale))`, the same aspect rule, `Lh = max(1,
int(Lw / aspect))`, `BgW/BgH = +2*pad`, `X/Y` centered with `//2`, image at
`(X + pad, Y + pad)`. -/
def embedLogoInSvgGeom (total_w total_h lw lh : ℤ) (logo_scale : ℚ) (pad : ℤ) : LogoGeom :=
  let Lw := max 1 (pyInt ((total_w : ℚ) * logo_scale))
  let aspect : ℚ := if lh = 0 then 1 else (lw : ℚ) / (lh : ℚ)
  let Lh := max 1 (pyInt ((Lw : ℚ) / aspect))
  let BgW := Lw + 2 * pad
  let BgH := Lh + 2 * pad
  let X := pyFloorDiv (total_w - BgW) 2
  let Y := pyFloorDiv (total_h - BgH) 2
  ⟨X, Y, BgW, BgH, X + pad, Y + pad, Lw, Lh⟩

/-- C6: for every symbol size, logo dimensions, scale fraction and padding,
the raster overlay of `add_logo_on_pil` and the vector overlay of
`embed_logo_in_svg` place the backing rectangle and the logo at exactly the
same bounds (exact equality, which is stronger than the claimed agreement
to within one rendering unit). -/
theorem claim_C6_overlay_geometry (W H lw lh : ℤ) (logo_scale : ℚ) (pad : ℤ) :
    addLogoOnPilGeom W H lw lh logo_scale pad =
      embedLogoInSvgGeom W H lw lh logo_scale pad := rfl

/-! ### The mappings.json write (qr-genv2.py lines 161-167) -/

/-- File-system operations relevant to persisting the mapping document:
an in-place truncating open, sequential writes to the open target, close,
plus the two operations an atomic-replace discipline would use (write to a
temporary location, atomically rename it over the target). -/
inductive FsOp where
  | openTrunc : FsOp
  | writeChunk : S → FsOp
  | closeF : FsOp
  | writeTempChunk : S → FsOp
  | renameTemp : FsOp
deriving DecidableEq

/-- All contents of the target file observable if the run is interrupted at
any point while executing `ops` (including mid-chunk during a sequential
write): `tmp` is the temporary file's accumulated content, `c` the target's
current content.  A rename is atomic: the target goes from `c` to `tmp`
with no intermediate state. -/
def crashStates : S → S → List FsOp → List S
  | _, c, [] => [c]
  | tmp, c, FsOp.openTrunc :: t => c :: crashStates tmp [] t
  | tmp, c, FsOp.writeChunk s :: t =>
      ((List.range (s.length + 1)).map (fun k => c ++ s.take k)) ++ crashStates tmp (c ++ s) t
  | tmp, c, FsOp.closeF :: t => c :: crashStates tmp c t
  | tmp, c, FsOp.writeTempChunk s :: t => c :: crashStates (tmp ++ s) c t
  | tmp, c, FsOp.renameTemp :: t => c :: crashStates tmp tmp t

/-- Modelled from the spec's words: a write of the new document `new` over
the prior document `old` is all-or-nothing when no interruption point can
expose the target in a half-written state — every observable content is
either the complete prior document or the complete new one. -/
def atomicWriteOk (old new : S) (ops : List FsOp) : Prop :=
  ∀ s ∈ crashStates [] old ops, s = old ∨ s = new

/-- The operations `main` actually performs for the serialized document
`content`: `mappings_path.open("w")` (truncating, in place), `json.dump`
streaming into it, close.  No temporary file and no rename appear. -/
def writeMappingsOps (content : S) : List FsOp :=
  [FsOp.openTrunc, FsOp.writeChunk content, FsOp.closeF]

/-- The discipline the spec asks for: stream the document to a temporary
location, then atomically rename it over the target. -/
def atomicReplaceOps (content : S) : List FsOp :=
  [FsOp.writeTempChunk content, FsOp.renameTemp]

/-- The spec's discipline would satisfy the all-or-nothing property. -/
theorem atomicReplaceOps_ok (old content : S) :
    atomicWriteOk old content (atomicReplaceOps content) := by
  intro s hs
  simp [atomicReplaceOps, crashStates] at hs
  tauto

/-- C5 (counterexample to the claim as stated): the write is not
all-or-nothing.  With prior document `"A"` and new document `"BC"`, the
in-place write the code performs has an interruption point exposing the
half-written content `"B"`, which is neither document; the claimed
temporary-file-plus-rename discipline does not hold of these operations. -/
theorem claim_C5_counterexample :
    ¬ atomicWriteOk ('A' :: []) ('B' :: 'C' :: [])
      (writeMappingsOps ('B' :: 'C' :: [])) := by
  unfold atomicWriteOk
  decide

/-- C5 (amended): the code writes the document in place through a
truncating open, so the contents observable at an interruption are exactly
the prior document followed by every prefix of the new document (the empty
file just after truncation included) — a truncated file can be left as the
only copy, and only the final close leaves the complete document. -/
theorem claim_C5_inplace_write (old content : S) :
    crashStates [] old (writeMappingsOps content) =
      old :: ((List.range (content.length + 1)).map (fun k => content.take k)
        ++ [content, content]) := by
  simp [writeMappingsOps, crashStates]

/-! ### The per-row pipeline of `main` (qr-genv2.py lines 121-159) -/

/-- One CSV row, reduced to the two consumed cells: `row.get(url_col) or ""`
and `row.get(name_col) or ""`. -/
structure Row where
  url : S
  name : S
deriving DecidableEq

/-- What happened to a row: skipped for a missing field, rendered to a file
(code, output path), or caught render failure (code, tracked URL) — the
printed report line plus skip count of the `except` branch. -/
inductive Outcome where
  | invalid : Outcome
  | rendered : S → S → Outcome
  | failed : S → S → Outcome
deriving DecidableEq

/-- Python dict assignment `m[k] = v` on an insertion-ordered association
list. -/
def dictInsert (m : List (S × S)) (k v : S) : List (S × S) :=
  if k ∈ m.map Prod.fst then m.map (fun kv => if kv.1 = k then (kv.1, v) else kv)
  else m ++ [(k, v)]

theorem dictInsert_fresh {m : List (S × S)} {k : S} (v : S)
    (h : k ∉ m.map Prod.fst) : dictInsert m k v = m ++ [(k, v)] := if_neg h

/-- `BASE_REDIRECT` of qr-genv2.py. -/
def baseRedirect : S := "https://your-domain.example".data

/-- `f"{BASE_REDIRECT}/r/{code}"`, the payload the QR encodes. -/
def qrUrl (code : S) : S := baseRedirect ++ '/' :: 'r' :: '/' :: code

/-- The UTM parameter dict built for a row (insertion-ordered). -/
def utmParams (name : S) : List (S × S) :=
  [("utm_source".data, "qr".data), ("utm_medium".data, "offline".data),
   ("utm_campaign".data, "diploma_lookbook".data), ("utm_content".data, slugify name)]

/-- The mutable state of the loop: the three counters, `used_codes`,
`mappings`, the output directory contents, and the report log. -/
structure RunState where
  total : Nat
  created : Nat
  skipped : Nat
  used : List S
  mappings : List (S × S)
  fs : List S
  log : List Outcome

/-- One iteration of the `for row in reader` loop.  `ren` is the renderer
oracle: whether `segno.make(qr_url)` plus `qr.save(out_path)` succeeds for
the encoded payload (the `except` branch prints, counts the row as skipped
and continues).  The successful save adds the output file to the
directory. -/
def stepRow (ren : S → Bool) (st : RunState) (row : Row) : RunState :=
  let url := pyStrip row.url
  let name := pyStrip row.name
  if url = [] ∨ name = [] then
    { st with total := st.total + 1, skipped := st.skipped + 1,
              log := st.log ++ [Outcome.invalid] }
  else
    let tracked := addUtm url (utmParams name)
    let code := allocCode st.used (slugify name)
    let used := st.used ++ [code]
    let mappings := dictInsert st.mappings code tracked
    let path := uniquePath st.fs (sanitizeFilename name) ".svg".data
    if ren (qrUrl code) then
      { total := st.total + 1, created := st.created + 1, skipped := st.skipped,
        used := used, mappings := mappings, fs := st.fs ++ [path],
        log := st.log ++ [Outcome.rendered code path] }
    else
      { total := st.total + 1, created := st.created, skipped := st.skipped + 1,
        used := used, mappings := mappings, fs := st.fs,
        log := st.log ++ [Outcome.failed code tracked] }

/-- The whole loop, starting from fresh counters, empty `used_codes` and
`mappings`, and output directory contents `fs0`. -/
def runBatch (ren : S → Bool) (fs0 : List S) (rows : List Row) : RunState :=
  rows.foldl (stepRow ren) ⟨0, 0, 0, [], [], fs0, []⟩

/-- Loop invariant: the mapping's keys are exactly `used_codes`, in
insertion order (lines 145-146 always update the two together with a code
that is fresh for `used_codes`). -/
def KeysInv (st : RunState) : Prop := st.mappings.map Prod.fst = st.used

theorem stepRow_inv {st : RunState} (ren : S → Bool) (row : Row) (h : KeysInv st) :
    KeysInv (stepRow ren st row) := by
  unfold stepRow
  by_cases hv : pyStrip row.url = [] ∨ pyStrip row.name = []
  · simpa [hv, KeysInv] using h
  · have hfresh : allocCode st.used (slugify (pyStrip row.name)) ∉ st.mappings.map Prod.fst := by
      rw [h]
      exact allocCode_not_mem _ _
    rw [if_neg hv]
    by_cases hr : ren (qrUrl (allocCode st.used (slugify (pyStrip row.name)))) <;>
      (simp [hr, KeysInv, dictInsert_fresh _ hfresh]; exact h)

theorem stepRow_mappings_mono {st : RunState} (ren : S → Bool) (row : Row)
    (h : KeysInv st) {c t : S} (hm : (c, t) ∈ st.mappings) :
    (c, t) ∈ (stepRow ren st row).mappings := by
  unfold stepRow
  by_cases hv : pyStrip row.url = [] ∨ pyStrip row.name = []
  · simpa [hv] using hm
  · have hfresh : allocCode st.used (slugify (pyStrip row.name)) ∉ st.mappings.map Prod.fst := by
      rw [h]
      exact allocCode_not_mem _ _
    rw [if_neg hv]
    by_cases hr : ren (qrUrl (allocCode st.used (slugify (pyStrip row.name)))) <;>
      simp [hr, dictInsert_fresh _ hfresh, hm]

theorem foldl_inv (ren : S → Bool) (rows : List Row) :
    ∀ st : RunState, KeysInv st → KeysInv (rows.foldl (stepRow ren) st) := by
  induction rows with
  | nil => exact fun st h => h
  | cons row rows ih => exact fun st h => ih _ (stepRow_inv ren row h)

theorem foldl_mappings_mono (ren : S → Bool) (rows : List Row) :
    ∀ st : RunState, KeysInv st → ∀ c t : S, (c, t) ∈ st.mappings →
      (c, t) ∈ (rows.foldl (stepRow ren) st).mappings := by
  induction rows with
  | nil => exact fun st _ c t hm => hm
  | cons row rows ih =>
    exact fun st h c t hm =>
      ih _ (stepRow_inv ren row h) c t (stepRow_mappings_mono ren row h hm)

/-- The log entry a row appends, and what it guarantees of the new state. -/
theorem stepRow_log {st : RunState} (ren : S → Bool) (row : Row) (h : KeysInv st) :
    ∃ x, (stepRow ren st row).log = st.log ++ [x] ∧
      (∀ c t, x = Outcome.failed c t → (c, t) ∈ (stepRow ren st row).mappings) := by
  unfold stepRow
  by_cases hv : pyStrip row.url = [] ∨ pyStrip row.name = []
  · exact ⟨Outcome.invalid, by simp [hv], fun c t hct => by cases hct⟩
  · have hfresh : allocCode st.used (slugify (pyStrip row.name)) ∉ st.mappings.map Prod.fst := by
      rw [h]
      exact allocCode_not_mem _ _
    rw [if_neg hv]
    by_cases hr : ren (qrUrl (allocCode st.used (slugify (pyStrip row.name)))) <;>
      simp only [hr, Bool.false_eq_true, if_true, if_false]
    · exact ⟨_, rfl, fun c t hct => by cases hct⟩
    · refine ⟨_, rfl, fun c t hct => ?_⟩
      injection hct with h1 h2
      subst h1; subst h2
      simp [dictInsert_fresh _ hfresh]

theorem stepRow_nodup {st : RunState} (ren : S → Bool) (row : Row)
    (h : st.used.Nodup) : (stepRow ren st row).used.Nodup := by
  unfold stepRow
  by_cases hv : pyStrip row.url = [] ∨ pyStrip row.name = []
  · simpa [hv] using h
  · have hfresh := allocCode_not_mem st.used (slugify (pyStrip row.name))
    rw [if_neg hv]
    by_cases hr : ren (qrUrl (allocCode st.used (slugify (pyStrip row.name)))) <;>
      (simp [hr, List.nodup_append, h]; exact hfresh)

theorem foldl_nodup (ren : S → Bool) (rows : List Row) :
    ∀ st : RunState, st.used.Nodup → (rows.foldl (stepRow ren) st).used.Nodup := by
  induction rows with
  | nil => exact fun st h => h
  | cons row rows ih => exact fun st h => ih _ (stepRow_nodup ren row h)

theorem stepRow_counts (st : RunState) (ren : S → Bool) (row : Row) :
    (stepRow ren st row).total = st.total + 1 ∧
    (stepRow ren st row).created + (stepRow ren st row).skipped
      = st.created + st.skipped + 1 ∧
    (stepRow ren st row).log.length = st.log.length + 1 := by
  unfold stepRow
  by_cases hv : pyStrip row.url = [] ∨ pyStrip row.name = []
  · simp [hv]; omega
  · rw [if_neg hv]
    by_cases hr : ren (qrUrl (allocCode st.used (slugify (pyStrip row.name)))) <;>
      (simp [hr]; omega)

theorem foldl_counts (ren : S → Bool) (rows : List Row) :
    ∀ st : RunState,
      (rows.foldl (stepRow ren) st).total = st.total + rows.length ∧
      (rows.foldl (stepRow ren) st).created + (rows.foldl (stepRow ren) st).skipped
        = st.created + st.skipped + rows.length ∧
      (rows.foldl (stepRow ren) st).log.length = st.log.length + rows.length := by
  induction rows with
  | nil => intro st; simp
  | cons row rows ih =>
    intro st
    have h1 := stepRow_counts st ren row
    have h2 := ih (stepRow ren st row)
    simp only [List.foldl_cons, List.length_cons]
    omega

theorem stepRow_used_eq {st1 st2 : RunState} (ren1 ren2 : S → Bool) {r1 r2 : Row}
    (hn : pyStrip r1.name = pyStrip r2.name)
    (hu : pyStrip r1.url = [] ↔ pyStrip r2.url = [])
    (h : st1.used = st2.used) :
    (stepRow ren1 st1 r1).used = (stepRow ren2 st2 r2).used := by
  unfold stepRow
  by_cases hv : pyStrip r1.url = [] ∨ pyStrip r1.name = []
  · have hv2 : pyStrip r2.url = [] ∨ pyStrip r2.name = [] := by
      rcases hv with hv | hv
      · exact Or.inl (hu.mp hv)
      · exact Or.inr (hn ▸ hv)
    simpa [hv, hv2] using h
  · have hv2 : ¬ (pyStrip r2.url = [] ∨ pyStrip r2.name = []) := by
      intro hcon
      rcases hcon with hc | hc
      · exact hv (Or.inl (hu.mpr hc))
      · exact hv (Or.inr (hn ▸ hc))
    rw [if_neg hv, if_neg hv2]
    simp [apply_ite RunState.used, h, hn]

theorem foldl_used_eq (ren1 ren2 : S → Bool) {rows1 rows2 : List Row}
    (hrows : List.Forall₂ (fun r1 r2 => pyStrip r1.name = pyStrip r2.name ∧
      (pyStrip r1.url = [] ↔ pyStrip r2.url = [])) rows1 rows2) :
    ∀ st1 st2 : RunState, st1.used = st2.used →
      (rows1.foldl (stepRow ren1) st1).used = (rows2.foldl (stepRow ren2) st2).used := by
  induction hrows with
  | nil => exact fun st1 st2 h => h
  | cons hpair _ ih =>
    exact fun st1 st2 h => ih _ _ (stepRow_used_eq ren1 ren2 hpair.1 hpair.2 h)

/-- C2: in one run the assigned short codes are pairwise distinct — the
used-code set stays duplicate-free (the allocator only ever returns a code
outside it, trying `-2`, `-3`, … when the base slug is taken, and the code
is recorded before the next row), and the mapping's keys are exactly the
used codes in order of assignment. -/
theorem claim_C2_codes_pairwise_distinct (ren : S → Bool) (fs0 : List S) (rows : List Row) :
    (runBatch ren fs0 rows).used.Nodup ∧
    (runBatch ren fs0 rows).mappings.map Prod.fst = (runBatch ren fs0 rows).used := by
  unfold runBatch
  exact ⟨foldl_nodup ren rows _ List.nodup_nil, foldl_inv ren rows _ rfl⟩

/-- C8: no per-item failure aborts the batch — whatever the renderer
succeeds or fails on, every row is processed (one log entry each), and each
row is accounted for exactly once as created or skipped (a caught render
failure is reported and counted in `skipped`). -/
theorem claim_C8_per_item_failures_contained (ren : S → Bool) (fs0 : List S) (rows : List Row) :
    (runBatch ren fs0 rows).total = rows.length ∧
    (runBatch ren fs0 rows).log.length = rows.length ∧
    (runBatch ren fs0 rows).created + (runBatch ren fs0 rows).skipped = rows.length := by
  unfold runBatch
  obtain ⟨h1, h2, h3⟩ := foldl_counts ren rows ⟨0, 0, 0, [], [], fs0, []⟩
  refine ⟨by simpa using h1, by simpa using h3, by simp at h2; omega⟩

theorem foldl_failed_mem (ren : S → Bool) (rows : List Row) :
    ∀ st : RunState, KeysInv st → ∀ c t : S,
      Outcome.failed c t ∈ (rows.foldl (stepRow ren) st).log →
      Outcome.failed c t ∈ st.log ∨ (c, t) ∈ (rows.foldl (stepRow ren) st).mappings := by
  induction rows with
  | nil => exact fun st _ c t h => Or.inl h
  | cons row rows ih =>
    intro st hinv c t h
    simp only [List.foldl_cons] at h ⊢
    rcases ih _ (stepRow_inv ren row hinv) c t h with h' | h'
    · obtain ⟨x, hlog, hx⟩ := stepRow_log ren row hinv
      rw [hlog] at h'
      rcases List.mem_append.mp h' with h'' | h''
      · exact Or.inl h''
      · have hxe : Outcome.failed c t = x := by simpa using h''
        have hm := hx c t hxe.symm
        exact Or.inr (foldl_mappings_mono ren rows _ (stepRow_inv ren row hinv) c t hm)
    · exact Or.inr h'

/-- C10: the code→trackedUrl entry is inserted before rendering is
attempted and is not rolled back on failure — whenever the log records a
caught render failure for code `c` with tracked URL `t`, the persisted
mapping still contains the entry `(c, t)`, though no output file was
produced for it. -/
theorem claim_C10_failed_entry_persists (ren : S → Bool) (fs0 : List S) (rows : List Row)
    (c t : S) (h : Outcome.failed c t ∈ (runBatch ren fs0 rows).log) :
    (c, t) ∈ (runBatch ren fs0 rows).mappings := by
  unfold runBatch at h ⊢
  rcases foldl_failed_mem ren rows ⟨0, 0, 0, [], [], fs0, []⟩ rfl c t h with h' | h'
  · cases h'
  · exact h'

/-- Witness for C10: with a renderer that always fails, the single valid
row `("x", "B")` leaves a failure in the log and its entry in the
mapping. -/
theorem claim_C10_failed_entry_persists_witness :
    Outcome.failed "b".data
        "x?utm_source=qr&utm_medium=offline&utm_campaign=diploma_lookbook&utm_content=b".data
      ∈ (runBatch (fun _ => false) [] [⟨"x".data, "B".data⟩]).log ∧
    ("b".data,
        "x?utm_source=qr&utm_medium=offline&utm_campaign=diploma_lookbook&utm_content=b".data)
      ∈ (runBatch (fun _ => false) [] [⟨"x".data, "B".data⟩]).mappings :=
  ⟨by decide, claim_C10_failed_entry_persists (fun _ => false) [] [⟨"x".data, "B".data⟩]
    "b".data
    "x?utm_source=qr&utm_medium=offline&utm_campaign=diploma_lookbook&utm_content=b".data
    (by decide)⟩

/-- C1: code assignment is stable across regenerations of the same batch
data — codes depend only on each row's display name and on which rows are
skipped, so rerunning with destinations changed (and any renderer outcomes
or output-directory contents) assigns every item the same short code, the
mapping holding the same keys in the same order; only the mapped URLs can
differ.  (The program reads no prior mapping document; stability holds
because allocation is deterministic in the name data.) -/
theorem claim_C1_code_stability (ren1 ren2 : S → Bool) (fs1 fs2 : List S)
    (rows1 rows2 : List Row)
    (h : List.Forall₂ (fun r1 r2 => pyStrip r1.name = pyStrip r2.name ∧
      (pyStrip r1.url = [] ↔ pyStrip r2.url = [])) rows1 rows2) :
    (runBatch ren1 fs1 rows1).used = (runBatch ren2 fs2 rows2).used ∧
    (runBatch ren1 fs1 rows1).mappings.map Prod.fst =
      (runBatch ren2 fs2 rows2).mappings.map Prod.fst := by
  unfold runBatch
  have hu := foldl_used_eq ren1 ren2 h ⟨0, 0, 0, [], [], fs1, []⟩ ⟨0, 0, 0, [], [], fs2, []⟩ rfl
  have h1 := foldl_inv ren1 rows1 ⟨0, 0, 0, [], [], fs1, []⟩ rfl
  have h2 := foldl_inv ren2 rows2 ⟨0, 0, 0, [], [], fs2, []⟩ rfl
  exact ⟨hu, by rw [h1, h2]; exact hu⟩

/-- Witness for C1: two one-row batches with the same display name and
different destination URLs receive the same code keys. -/
theorem claim_C1_code_stability_witness :
    (runBatch (fun _ => false) [] [⟨"x".data, "B".data⟩]).used =
      (runBatch (fun _ => true) [] [⟨"y".data, "B".data⟩]).used ∧
    (runBatch (fun _ => false) [] [⟨"x".data, "B".data⟩]).mappings.map Prod.fst =
      (runBatch (fun _ => true) [] [⟨"y".data, "B".data⟩]).mappings.map Prod.fst :=
  claim_C1_code_stability (fun _ => false) (fun _ => true) [] [] _ _
    (List.Forall₂.cons ⟨rfl, by decide⟩ List.Forall₂.nil)
